import Mathlib

/-!
Verification of the `quadtree_simple` Rust crate (src/lib.rs), shallowly
embedded in Lean 4. Coordinates are modelled by `ℚ`; halving of extents is
exact, matching the exact behavior of the source arithmetic. Fallible or
potentially diverging code (`insert`, which calls `unwrap` on child slots
and recurses after subdivision) is modelled with fuel, returning `none` on
fuel exhaustion or on an `unwrap` of a missing child.
-/

namespace QuadtreeSimple

/-- Point in 2D space holding some data (struct `Point<T>` in src/lib.rs). -/
structure Point (T : Type) where
  x : ℚ
  y : ℚ
  data : T
deriving Repr, DecidableEq

/-- Rectangle anchored on center x, y with half-width w and half-height h
(struct `Qrect` in src/lib.rs). -/
structure Qrect where
  x : ℚ
  y : ℚ
  w : ℚ
  h : ℚ
deriving Repr, DecidableEq

namespace Qrect

/-- Constructor `Qrect::new`. -/
def new (x y w h : ℚ) : Qrect := ⟨x, y, w, h⟩

/-- Constructor `Qrect::range`. -/
def range (x y r : ℚ) : Qrect := ⟨x, y, r, r⟩

/-- Constructor `Qrect::screen_size`. -/
def screen_size (width height : ℚ) : Qrect :=
  ⟨width / 2, height / 2, width / 2, height / 2⟩

/-- Predicate `Qrect::contains_point`: inclusive containment on all four
edges. -/
def contains_point {T : Type} (r : Qrect) (p : Point T) : Bool :=
  p.x ≥ r.x - r.w && p.x ≤ r.x + r.w && p.y ≥ r.y - r.h && p.y ≤ r.y + r.h

/-- Predicate `Qrect::intersects_rect`: separating-axis overlap test,
inclusive of touching edges. -/
def intersects_rect (self other : Qrect) : Bool :=
  !(other.x - other.w > self.x + self.w ||
    other.x + other.w < self.x - self.w ||
    other.y - other.h > self.y + self.h ||
    other.y + other.h < self.y - self.h)

end Qrect

/-- Quadtree node (struct `Quadtree<T>` in src/lib.rs): boundary, capacity,
list of directly stored points, the `divided` flag and four optional child
slots. -/
inductive Quadtree (T : Type) : Type where
  | mk (boundary : Qrect) (capacity : Nat) (points : List (Point T))
      (divided : Bool)
      (top_left top_right bottom_left bottom_right : Option (Quadtree T)) :
      Quadtree T
deriving Repr

namespace Quadtree

variable {T : Type}

/-- Field accessor for `boundary`. -/
def boundary : Quadtree T → Qrect
  | mk b _ _ _ _ _ _ _ => b

/-- Field accessor for `capacity`. -/
def capacity : Quadtree T → Nat
  | mk _ c _ _ _ _ _ _ => c

/-- Field accessor for `points`. -/
def points : Quadtree T → List (Point T)
  | mk _ _ ps _ _ _ _ _ => ps

/-- Field accessor for `divided`. -/
def divided : Quadtree T → Bool
  | mk _ _ _ d _ _ _ _ => d

/-- Field accessor for the `top_left` child slot. -/
def top_left : Quadtree T → Option (Quadtree T)
  | mk _ _ _ _ tl _ _ _ => tl

/-- Field accessor for the `top_right` child slot. -/
def top_right : Quadtree T → Option (Quadtree T)
  | mk _ _ _ _ _ tr _ _ => tr

/-- Field accessor for the `bottom_left` child slot. -/
def bottom_left : Quadtree T → Option (Quadtree T)
  | mk _ _ _ _ _ _ bl _ => bl

/-- Field accessor for the `bottom_right` child slot. -/
def bottom_right : Quadtree T → Option (Quadtree T)
  | mk _ _ _ _ _ _ _ br => br

/-- Constructor `Quadtree::new`: empty point list, not divided, no
children. -/
def new (b : Qrect) (c : Nat) : Quadtree T :=
  mk b c [] false none none none none

/-- Method `Quadtree::empty`: clear the points, reset `divided`, drop all
four children; boundary and capacity stay. -/
def empty : Quadtree T → Quadtree T
  | mk b c _ _ _ _ _ _ => mk b c [] false none none none none

/-- Append a point to a node's own point list (`self.points.push(...)` in
`Quadtree::insert`). -/
def push_point : Quadtree T → Point T → Quadtree T
  | mk b c ps d tl tr bl br, p => mk b c (ps ++ [p]) d tl tr bl br

/-- Boundary of the top-left child created by `Quadtree::subdivide`
(variable `tl` there). -/
def tl_rect (b : Qrect) : Qrect :=
  Qrect.new (b.x - b.w / 2) (b.y - b.h / 2) (b.w / 2) (b.h / 2)

/-- Boundary of the top-right child created by `Quadtree::subdivide`
(variable `tr` there). -/
def tr_rect (b : Qrect) : Qrect :=
  Qrect.new (b.x + b.w / 2) (b.y - b.h / 2) (b.w / 2) (b.h / 2)

/-- Boundary of the bottom-left child created by `Quadtree::subdivide`
(variable `bl` there). -/
def bl_rect (b : Qrect) : Qrect :=
  Qrect.new (b.x - b.w / 2) (b.y + b.h / 2) (b.w / 2) (b.h / 2)

/-- Boundary of the bottom-right child created by `Quadtree::subdivide`
(variable `br` there). -/
def br_rect (b : Qrect) : Qrect :=
  Qrect.new (b.x + b.w / 2) (b.y + b.h / 2) (b.w / 2) (b.h / 2)

/-- Method `Quadtree::subdivide`: install four fresh children over the four
quadrants of the boundary, all with the parent's capacity, and set
`divided`. -/
def subdivide : Quadtree T → Quadtree T
  | mk b c ps _ _ _ _ _ =>
    mk b c ps true
      (some (new (tl_rect b) c)) (some (new (tr_rect b) c))
      (some (new (bl_rect b) c)) (some (new (br_rect b) c))

mutual

/-- Method `Quadtree::insert`, with explicit fuel. `none` models a run that
does not return normally: recursion deeper than the fuel (which happens for
real when `capacity = 0`), or an `unwrap` of a missing child slot. On
`some (t, b)` the call returned `b` leaving the tree in state `t`. When the
node is full it is subdivided if not yet divided and the point is offered
to the children in the source order, via `insert_kids`. -/
def insert : Nat → Quadtree T → Point T → Option (Quadtree T × Bool)
  | 0, _, _ => none
  | fuel + 1, t, p =>
    if ! t.boundary.contains_point p then
      some (t, false)
    else if t.points.length < t.capacity then
      some (t.push_point p, true)
    else
      insert_kids fuel (if t.divided then t else t.subdivide) p
termination_by fuel _ _ => 2 * fuel + 1

/-- The four sequential child-insertion attempts of `Quadtree::insert`
(source lines `if self.top_left...insert { return true }` through the final
`return false`), on a node whose children have just been ensured; the child
slots are threaded through the attempts in the source order TL, TR, BL,
BR. A missing slot is an `unwrap` panic, hence `none`. -/
def insert_kids (fuel : Nat) : Quadtree T → Point T → Option (Quadtree T × Bool)
  | mk b c ps d (some u1) (some u2) (some u3) (some u4), p =>
      match insert fuel u1 p with
      | none => none
      | some (u1', b1) =>
        if b1 then
          some (mk b c ps d (some u1') (some u2) (some u3) (some u4), true)
        else
          match insert fuel u2 p with
          | none => none
          | some (u2', b2) =>
            if b2 then
              some (mk b c ps d (some u1') (some u2') (some u3) (some u4), true)
            else
              match insert fuel u3 p with
              | none => none
              | some (u3', b3) =>
                if b3 then
                  some (mk b c ps d (some u1') (some u2') (some u3') (some u4), true)
                else
                  match insert fuel u4 p with
                  | none => none
                  | some (u4', b4) =>
                    some (mk b c ps d (some u1') (some u2') (some u3') (some u4'), b4)
  | _, _ => none
termination_by 2 * fuel + 2

end

mutual

/-- Method `Quadtree::query_rect`. `none` models an `unwrap` panic on a
missing child slot of a node whose `divided` flag is set; on a well-formed
tree the result is always `some`. The pruning test and the traversal order
(own matches first, then TL, TR, BL, BR) follow the source. -/
def query_rect : Quadtree T → Qrect → Option (List (Point T))
  | mk b _ ps d tl tr bl br, range =>
    if ! b.intersects_rect range then
      some []
    else
      let found := ps.filter fun p => range.contains_point p
      if d then
        match query_rectO tl range with
        | none => none
        | some tlp =>
          match query_rectO tr range with
          | none => none
          | some trp =>
            match query_rectO bl range with
            | none => none
            | some blp =>
              match query_rectO br range with
              | none => none
              | some brp => some (found ++ tlp ++ trp ++ blp ++ brp)
      else
        some found

/-- Recursive query of an optional child slot; a missing slot is the
`unwrap` panic. -/
def query_rectO : Option (Quadtree T) → Qrect → Option (List (Point T))
  | none, _ => none
  | some t, range => query_rect t range

end

/-- Method `Quadtree::query_circle` (the variant in src/lib.rs): query the
bounding square of the circle, then retain points whose squared distance to
the center is strictly below the squared radius. -/
def query_circle (t : Quadtree T) (x y range : ℚ) : Option (List (Point T)) :=
  let rect := Qrect.new x y range range
  match query_rect t rect with
  | none => none
  | some temp =>
    some (temp.filter fun p =>
      let dist_x := p.x - x
      let dist_y := p.y - y
      let dist := dist_x * dist_x + dist_y * dist_y
      if dist < range * range then true else false)

open Classical in
/-- Method `Quadtree::query_circle` as published in the packaged crate
`target/package/quadtree_simple-0.1.2/src/lib.rs`: identical except that
the retained test square-roots the squared distance and compares it with
the radius. The square root is modelled on the reals. -/
noncomputable def query_circle_sqrt (t : Quadtree T) (x y range : ℚ) :
    Option (List (Point T)) :=
  let rect := Qrect.new x y range range
  match query_rect t rect with
  | none => none
  | some temp =>
    some (temp.filter fun p =>
      let dist_x := p.x - x
      let dist_y := p.y - y
      let dist := Real.sqrt ((dist_x * dist_x + dist_y * dist_y : ℚ) : ℝ)
      if dist < (range : ℝ) then true else false)

/-- Method `Quadtree::collect`: query the node's own boundary. -/
def collect (t : Quadtree T) : Option (List (Point T)) :=
  query_rect t t.boundary

mutual

/-- Height of a tree: 1 for a node with no children, otherwise one more
than the tallest child. Used as the fuel bound for `insert`. -/
def height : Quadtree T → Nat
  | mk _ _ _ _ tl tr bl br =>
    1 + max (max (heightO tl) (heightO tr)) (max (heightO bl) (heightO br))

/-- Height of an optional child slot. -/
def heightO : Option (Quadtree T) → Nat
  | none => 0
  | some t => height t

end

mutual

/-- Every point stored in the subtree, in traversal order: the node's own
points (insertion order) first, then the TL, TR, BL, BR subtrees in turn. -/
def all_points : Quadtree T → List (Point T)
  | mk _ _ ps _ tl tr bl br =>
    ps ++ all_pointsO tl ++ all_pointsO tr ++ all_pointsO bl ++ all_pointsO br

/-- Stored points of an optional child slot. -/
def all_pointsO : Option (Quadtree T) → List (Point T)
  | none => []
  | some t => all_points t

end

mutual

/-- Matches of a rectangle query described structurally, exactly as the
specification orders them: the node's own matching points first (insertion
order), then the matches of the TL, TR, BL, BR children recursively, each
appended in turn; no pruning. -/
def query_rect_spec : Quadtree T → Qrect → List (Point T)
  | mk _ _ ps _ tl tr bl br, range =>
    (ps.filter fun p => range.contains_point p) ++
      query_rect_specO tl range ++ query_rect_specO tr range ++
      query_rect_specO bl range ++ query_rect_specO br range

/-- Structural matches of an optional child slot. -/
def query_rect_specO : Option (Quadtree T) → Qrect → List (Point T)
  | none, _ => []
  | some t, range => query_rect_spec t range

end

mutual

/-- Well-formedness of a tree, as maintained by the library: every directly
stored point lies in the node's boundary; the point list never exceeds the
capacity; a divided node is exactly full and carries four children over the
four quadrants, each with the parent's capacity and itself well-formed; an
undivided node has no children. -/
def wf : Quadtree T → Bool
  | mk b c ps d tl tr bl br =>
    (ps.all fun p => b.contains_point p) &&
    decide (ps.length ≤ c) &&
    (if d then
      decide (ps.length = c) &&
      wfO tl (tl_rect b) c && wfO tr (tr_rect b) c &&
      wfO bl (bl_rect b) c && wfO br (br_rect b) c
    else
      tl.isNone && tr.isNone && bl.isNone && br.isNone)

/-- Well-formedness of a child slot: the slot is filled, has the required
boundary and capacity, and is itself well-formed. -/
def wfO : Option (Quadtree T) → Qrect → Nat → Bool
  | none, _, _ => false
  | some t, b, c => decide (t.boundary = b) && decide (t.capacity = c) && wf t

end

mutual

/-- Structural invariant claimed of every reachable tree: in every node the
point list never exceeds the capacity, the `divided` flag holds exactly when
all four child slots are present, and a divided node's point list has length
exactly the capacity. -/
def inv_c9 : Quadtree T → Bool
  | mk _ c ps d tl tr bl br =>
    decide (ps.length ≤ c) &&
    (d == (tl.isSome && tr.isSome && bl.isSome && br.isSome)) &&
    (!d || decide (ps.length = c)) &&
    inv_c9O tl && inv_c9O tr && inv_c9O bl && inv_c9O br

/-- Structural invariant of an optional child slot. -/
def inv_c9O : Option (Quadtree T) → Bool
  | none => true
  | some t => inv_c9 t

end

/-- Insert a list of points in order (a caller's loop of `insert` calls),
each call run with the given fuel, counting how many of the calls returned
`true`; `none` when any single call fails to return. -/
def insert_all (fuel : Nat) : Quadtree T → List (Point T) → Option (Quadtree T × Nat)
  | t, [] => some (t, 0)
  | t, p :: ps =>
    match insert fuel t p with
    | none => none
    | some (t', b) =>
      match insert_all fuel t' ps with
      | none => none
      | some (t'', n) => some (t'', (if b then 1 else 0) + n)

/-- Trees reachable from a freshly constructed root by completed `insert`
calls and `empty` (reset) calls. -/
inductive Reachable : Quadtree T → Prop where
  | new : ∀ (b : Qrect) (c : Nat), Reachable (new b c)
  | ins : ∀ {t t' : Quadtree T} {fuel : Nat} {p : Point T} {bit : Bool},
      Reachable t → insert fuel t p = some (t', bit) → Reachable t'
  | rst : ∀ {t : Quadtree T}, Reachable t → Reachable t.empty

/-- Euclidean distance from a point to a center, on the reals. -/
noncomputable def dist_to (p : Point T) (cx cy : ℚ) : ℝ :=
  Real.sqrt (((p.x - cx) * (p.x - cx) + (p.y - cy) * (p.y - cy) : ℚ) : ℝ)

/-- Round a rational to the nearest integer, ties to even (the IEEE-754
default rounding of a scaled significand). -/
def rne (q : ℚ) : ℤ :=
  if q - ⌊q⌋ < 1 / 2 then ⌊q⌋
  else if 1 / 2 < q - ⌊q⌋ then ⌊q⌋ + 1
  else if ⌊q⌋ % 2 = 0 then ⌊q⌋ else ⌊q⌋ + 1

/-- Rounding of a rational to the nearest IEEE-754 binary32 (`f32`) value,
round-to-nearest, ties to even: the 24-bit significand is the scaled value
`x / 2 ^ (e - 23)` where `2 ^ e ≤ |x| < 2 ^ (e + 1)`. Modelled on the
normal range with unbounded exponent (no overflow, infinities or
subnormals; every number appearing in the concrete computations below is a
normal binary32 value, so the model and real `f32` agree there). -/
def fl (x : ℚ) : ℚ :=
  if x = 0 then 0
  else if 0 < x then
    (rne (x * 2 ^ (23 - Int.log 2 x)) : ℚ) * 2 ^ (Int.log 2 x - 23)
  else
    -((rne (-x * 2 ^ (23 - Int.log 2 (-x))) : ℚ) * 2 ^ (Int.log 2 (-x) - 23))

/-- The `f32` addition of the source: exact sum, rounded. -/
def fadd (a b : ℚ) : ℚ := fl (a + b)

/-- The `f32` subtraction of the source: exact difference, rounded. -/
def fsub (a b : ℚ) : ℚ := fl (a - b)

/-- The `f32` multiplication of the source: exact product, rounded. -/
def fmul (a b : ℚ) : ℚ := fl (a * b)

/-- The `f32` division of the source: exact quotient, rounded. -/
def fdiv (a b : ℚ) : ℚ := fl (a / b)

open Classical in
/-- Round a real to the nearest integer, ties to even. -/
noncomputable def rneR (q : ℝ) : ℤ :=
  if q - ⌊q⌋ < 1 / 2 then ⌊q⌋
  else if 1 / 2 < q - ⌊q⌋ then ⌊q⌋ + 1
  else if ⌊q⌋ % 2 = 0 then ⌊q⌋ else ⌊q⌋ + 1

open Classical in
/-- Binary32 rounding of a real number (normal range, as in `fl`). -/
noncomputable def flR (x : ℝ) : ℝ :=
  if x = 0 then 0
  else if 0 < x then
    (rneR (x * 2 ^ (23 - Int.log 2 x)) : ℝ) * 2 ^ (Int.log 2 x - 23)
  else
    -((rneR (-x * 2 ^ (23 - Int.log 2 (-x))) : ℝ) * 2 ^ (Int.log 2 (-x) - 23))

/-- The correctly rounded `f32` square root used by the packaged 0.1.2
variant (`.sqrt()`): the real square root, rounded to binary32. -/
noncomputable def fsqrt (x : ℚ) : ℝ := flR (Real.sqrt (x : ℝ))

end Quadtree

namespace Qrect

/-- Predicate `Qrect::contains_point` under `f32` arithmetic: each edge
`x ∓ w`, `y ∓ h` is a rounded subtraction or addition. -/
def contains_point32 {T : Type} (r : Qrect) (p : Point T) : Bool :=
  p.x ≥ Quadtree.fsub r.x r.w && p.x ≤ Quadtree.fadd r.x r.w &&
  p.y ≥ Quadtree.fsub r.y r.h && p.y ≤ Quadtree.fadd r.y r.h

/-- Predicate `Qrect::intersects_rect` under `f32` arithmetic. -/
def intersects_rect32 (self other : Qrect) : Bool :=
  !(Quadtree.fsub other.x other.w > Quadtree.fadd self.x self.w ||
    Quadtree.fadd other.x other.w < Quadtree.fsub self.x self.w ||
    Quadtree.fsub other.y other.h > Quadtree.fadd self.y self.h ||
    Quadtree.fadd other.y other.h < Quadtree.fsub self.y self.h)

end Qrect

namespace Quadtree

/-- Top-left child boundary computed by `Quadtree::subdivide` under `f32`
arithmetic. -/
def tl_rect32 (b : Qrect) : Qrect :=
  Qrect.new (fsub b.x (fdiv b.w 2)) (fsub b.y (fdiv b.h 2)) (fdiv b.w 2) (fdiv b.h 2)

/-- Top-right child boundary under `f32` arithmetic. -/
def tr_rect32 (b : Qrect) : Qrect :=
  Qrect.new (fadd b.x (fdiv b.w 2)) (fsub b.y (fdiv b.h 2)) (fdiv b.w 2) (fdiv b.h 2)

/-- Bottom-left child boundary under `f32` arithmetic. -/
def bl_rect32 (b : Qrect) : Qrect :=
  Qrect.new (fsub b.x (fdiv b.w 2)) (fadd b.y (fdiv b.h 2)) (fdiv b.w 2) (fdiv b.h 2)

/-- Bottom-right child boundary under `f32` arithmetic. -/
def br_rect32 (b : Qrect) : Qrect :=
  Qrect.new (fadd b.x (fdiv b.w 2)) (fadd b.y (fdiv b.h 2)) (fdiv b.w 2) (fdiv b.h 2)

/-- Method `Quadtree::subdivide` under `f32` arithmetic. -/
def subdivide32 : Quadtree T → Quadtree T
  | mk b c ps _ _ _ _ _ =>
    mk b c ps true
      (some (new (tl_rect32 b) c)) (some (new (tr_rect32 b) c))
      (some (new (bl_rect32 b) c)) (some (new (br_rect32 b) c))

mutual

/-- Method `Quadtree::insert` under `f32` arithmetic, fuelled exactly like
`insert`. -/
def insert32 : Nat → Quadtree T → Point T → Option (Quadtree T × Bool)
  | 0, _, _ => none
  | fuel + 1, t, p =>
    if ! t.boundary.contains_point32 p then
      some (t, false)
    else if t.points.length < t.capacity then
      some (t.push_point p, true)
    else
      insert_kids32 fuel (if t.divided then t else t.subdivide32) p
termination_by fuel _ _ => 2 * fuel + 1

/-- The four sequential child attempts of `Quadtree::insert` under `f32`
arithmetic. -/
def insert_kids32 (fuel : Nat) : Quadtree T → Point T → Option (Quadtree T × Bool)
  | mk b c ps d (some u1) (some u2) (some u3) (some u4), p =>
      match insert32 fuel u1 p with
      | none => none
      | some (u1', b1) =>
        if b1 then
          some (mk b c ps d (some u1') (some u2) (some u3) (some u4), true)
        else
          match insert32 fuel u2 p with
          | none => none
          | some (u2', b2) =>
            if b2 then
              some (mk b c ps d (some u1') (some u2') (some u3) (some u4), true)
            else
              match insert32 fuel u3 p with
              | none => none
              | some (u3', b3) =>
                if b3 then
                  some (mk b c ps d (some u1') (some u2') (some u3') (some u4), true)
                else
                  match insert32 fuel u4 p with
                  | none => none
                  | some (u4', b4) =>
                    some (mk b c ps d (some u1') (some u2') (some u3') (some u4'), b4)
  | _, _ => none
termination_by 2 * fuel + 2

end

mutual

/-- Method `Quadtree::query_rect` under `f32` arithmetic. -/
def query_rect32 : Quadtree T → Qrect → Option (List (Point T))
  | mk b _ ps d tl tr bl br, range =>
    if ! b.intersects_rect32 range then
      some []
    else
      let found := ps.filter fun p => range.contains_point32 p
      if d then
        match query_rectO32 tl range with
        | none => none
        | some tlp =>
          match query_rectO32 tr range with
          | none => none
          | some trp =>
            match query_rectO32 bl range with
            | none => none
            | some blp =>
              match query_rectO32 br range with
              | none => none
              | some brp => some (found ++ tlp ++ trp ++ blp ++ brp)
      else
        some found

/-- Recursive `f32` query of an optional child slot. -/
def query_rectO32 : Option (Quadtree T) → Qrect → Option (List (Point T))
  | none, _ => none
  | some t, range => query_rect32 t range

end

/-- Method `Quadtree::query_circle` (src variant) under `f32` arithmetic:
each product, the sum and the squared radius are rounded. -/
def query_circle32 (t : Quadtree T) (x y range : ℚ) : Option (List (Point T)) :=
  let rect := Qrect.new x y range range
  match query_rect32 t rect with
  | none => none
  | some temp =>
    some (temp.filter fun p =>
      let dist_x := fsub p.x x
      let dist_y := fsub p.y y
      let dist := fadd (fmul dist_x dist_x) (fmul dist_y dist_y)
      if dist < fmul range range then true else false)

open Classical in
/-- Method `Quadtree::query_circle` of the packaged 0.1.2 crate under
`f32` arithmetic: the rounded squared distance is square-rooted with the
correctly rounded `f32` square root and compared with the radius. -/
noncomputable def query_circle_sqrt32 (t : Quadtree T) (x y range : ℚ) :
    Option (List (Point T)) :=
  let rect := Qrect.new x y range range
  match query_rect32 t rect with
  | none => none
  | some temp =>
    some (temp.filter fun p =>
      let dist_x := fsub p.x x
      let dist_y := fsub p.y y
      let dist := fsqrt (fadd (fmul dist_x dist_x) (fmul dist_y dist_y))
      if dist < ((range : ℚ) : ℝ) then true else false)

/-- Method `Quadtree::collect` under `f32` arithmetic. -/
def collect32 (t : Quadtree T) : Option (List (Point T)) :=
  query_rect32 t t.boundary

/-- Insert a list of points in order under `f32` arithmetic, counting the
accepted ones. -/
def insert_all32 (fuel : Nat) : Quadtree T → List (Point T) → Option (Quadtree T × Nat)
  | t, [] => some (t, 0)
  | t, p :: ps =>
    match insert32 fuel t p with
    | none => none
    | some (t', b) =>
      match insert_all32 fuel t' ps with
      | none => none
      | some (t'', n) => some (t'', (if b then 1 else 0) + n)

mutual

/-- Invariant maintained by the `f32` insertion path: every point stored
anywhere in the subtree passed this node's own `f32` containment test (it
did so during its insertion), children are present exactly on `divided`,
and the children satisfy the same invariant. No geometric relation between
parent and child boundaries is assumed — under rounding the children need
not tile the parent. -/
def wf32 : Quadtree T → Bool
  | mk b c ps d tl tr bl br =>
    ((ps ++ all_pointsO tl ++ all_pointsO tr ++ all_pointsO bl ++ all_pointsO br).all
      fun p => b.contains_point32 p) &&
    (if d then wf32O tl && wf32O tr && wf32O bl && wf32O br
      else tl.isNone && tr.isNone && bl.isNone && br.isNone)

/-- The `f32` invariant for a child slot. -/
def wf32O : Option (Quadtree T) → Bool
  | none => false
  | some t => wf32 t

end

@[simp]
theorem boundary_mk (b : Qrect) (c : Nat) (ps : List (Point T)) (d : Bool)
    (tl tr bl br : Option (Quadtree T)) :
    (mk b c ps d tl tr bl br).boundary = b := rfl

@[simp]
theorem capacity_mk (b : Qrect) (c : Nat) (ps : List (Point T)) (d : Bool)
    (tl tr bl br : Option (Quadtree T)) :
    (mk b c ps d tl tr bl br).capacity = c := rfl

@[simp]
theorem points_mk (b : Qrect) (c : Nat) (ps : List (Point T)) (d : Bool)
    (tl tr bl br : Option (Quadtree T)) :
    (mk b c ps d tl tr bl br).points = ps := rfl

@[simp]
theorem divided_mk (b : Qrect) (c : Nat) (ps : List (Point T)) (d : Bool)
    (tl tr bl br : Option (Quadtree T)) :
    (mk b c ps d tl tr bl br).divided = d := rfl

@[simp]
theorem top_left_mk (b : Qrect) (c : Nat) (ps : List (Point T)) (d : Bool)
    (tl tr bl br : Option (Quadtree T)) :
    (mk b c ps d tl tr bl br).top_left = tl := rfl

@[simp]
theorem top_right_mk (b : Qrect) (c : Nat) (ps : List (Point T)) (d : Bool)
    (tl tr bl br : Option (Quadtree T)) :
    (mk b c ps d tl tr bl br).top_right = tr := rfl

@[simp]
theorem bottom_left_mk (b : Qrect) (c : Nat) (ps : List (Point T)) (d : Bool)
    (tl tr bl br : Option (Quadtree T)) :
    (mk b c ps d tl tr bl br).bottom_left = bl := rfl

@[simp]
theorem bottom_right_mk (b : Qrect) (c : Nat) (ps : List (Point T)) (d : Bool)
    (tl tr bl br : Option (Quadtree T)) :
    (mk b c ps d tl tr bl br).bottom_right = br := rfl

theorem heightO_some {o : Option (Quadtree T)} {u : Quadtree T}
    (h : o = some u) : heightO o = height u := by subst h; rfl

theorem height_child_lt {b : Qrect} {c : Nat} {ps : List (Point T)} {d : Bool}
    {tl tr bl br : Option (Quadtree T)} {u : Quadtree T}
    (h : tl = some u ∨ tr = some u ∨ bl = some u ∨ br = some u) :
    height u < height (mk b c ps d tl tr bl br) := by
  rcases h with h | h | h | h <;> rw [height] <;> rw [← heightO_some h] <;> omega

/-- Structural induction over quadtrees; the four inductive hypotheses
cover the four child slots. -/
theorem strong_ind {motive : Quadtree T → Prop}
    (step : ∀ (b : Qrect) (c : Nat) (ps : List (Point T)) (d : Bool)
        (tl tr bl br : Option (Quadtree T)),
        (∀ u, tl = some u → motive u) → (∀ u, tr = some u → motive u) →
        (∀ u, bl = some u → motive u) → (∀ u, br = some u → motive u) →
        motive (mk b c ps d tl tr bl br)) :
    ∀ t, motive t := by
  have H : ∀ (n : Nat) (t : Quadtree T), height t ≤ n → motive t := by
    intro n
    induction n with
    | zero =>
      intro t ht
      cases t with
      | mk b c ps d tl tr bl br => rw [height] at ht; omega
    | succ n ih =>
      intro t ht
      cases t with
      | mk b c ps d tl tr bl br =>
        refine step b c ps d tl tr bl br ?_ ?_ ?_ ?_ <;> intro u hu <;> apply ih
        · have := @height_child_lt T b c ps d tl tr bl br u (Or.inl hu); omega
        · have := @height_child_lt T b c ps d tl tr bl br u (Or.inr (Or.inl hu)); omega
        · have := @height_child_lt T b c ps d tl tr bl br u (Or.inr (Or.inr (Or.inl hu))); omega
        · have := @height_child_lt T b c ps d tl tr bl br u (Or.inr (Or.inr (Or.inr hu))); omega
  exact fun t => H (height t) t le_rfl

theorem contains_point_iff {r : Qrect} {p : Point T} :
    r.contains_point p = true ↔
      r.x - r.w ≤ p.x ∧ p.x ≤ r.x + r.w ∧ r.y - r.h ≤ p.y ∧ p.y ≤ r.y + r.h := by
  simp [Qrect.contains_point, and_assoc, ge_iff_le]

theorem intersects_rect_iff {s r : Qrect} :
    s.intersects_rect r = true ↔
      ¬(s.x + s.w < r.x - r.w ∨ r.x + r.w < s.x - s.w ∨
        s.y + s.h < r.y - r.h ∨ r.y + r.h < s.y - s.h) := by
  simp [Qrect.intersects_rect, not_or, gt_iff_lt]
  tauto

/-- A rectangle containing a point of another rectangle intersects it. -/
theorem contains_both_intersects {b r : Qrect} {p : Point T}
    (hb : b.contains_point p = true) (hr : r.contains_point p = true) :
    b.intersects_rect r = true := by
  rw [contains_point_iff] at hb hr
  rw [intersects_rect_iff]
  push_neg
  obtain ⟨hb1, hb2, hb3, hb4⟩ := hb
  obtain ⟨hr1, hr2, hr3, hr4⟩ := hr
  refine ⟨by linarith, by linarith, by linarith, by linarith⟩

/-- Containment in any of the four quadrants implies containment in the
parent rectangle. -/
theorem quadrant_subset {b : Qrect} {p : Point T} {q : Qrect}
    (hq : q = tl_rect b ∨ q = tr_rect b ∨ q = bl_rect b ∨ q = br_rect b)
    (h : q.contains_point p = true) : b.contains_point p = true := by
  rw [contains_point_iff] at h ⊢
  obtain ⟨h1, h2, h3, h4⟩ := h
  rcases hq with hq | hq | hq | hq <;>
    subst hq <;>
    simp only [tl_rect, tr_rect, bl_rect, br_rect, Qrect.new] at h1 h2 h3 h4 <;>
    refine ⟨by linarith, by linarith, by linarith, by linarith⟩

/-- The four quadrants jointly cover the parent rectangle. -/
theorem quadrant_cover {b : Qrect} {p : Point T}
    (h : b.contains_point p = true) :
    (tl_rect b).contains_point p = true ∨ (tr_rect b).contains_point p = true ∨
      (bl_rect b).contains_point p = true ∨ (br_rect b).contains_point p = true := by
  rw [contains_point_iff] at h
  obtain ⟨h1, h2, h3, h4⟩ := h
  simp only [contains_point_iff, tl_rect, tr_rect, bl_rect, br_rect, Qrect.new]
  rcases le_total p.x b.x with hx | hx <;> rcases le_total p.y b.y with hy | hy
  · exact Or.inl ⟨by linarith, by linarith, by linarith, by linarith⟩
  · exact Or.inr (Or.inr (Or.inl ⟨by linarith, by linarith, by linarith, by linarith⟩))
  · exact Or.inr (Or.inl ⟨by linarith, by linarith, by linarith, by linarith⟩)
  · exact Or.inr (Or.inr (Or.inr ⟨by linarith, by linarith, by linarith, by linarith⟩))

@[simp]
theorem all_points_mk (b : Qrect) (c : Nat) (ps : List (Point T)) (d : Bool)
    (tl tr bl br : Option (Quadtree T)) :
    all_points (mk b c ps d tl tr bl br) =
      ps ++ all_pointsO tl ++ all_pointsO tr ++ all_pointsO bl ++ all_pointsO br := by
  rw [all_points]

@[simp]
theorem all_pointsO_none : all_pointsO (T := T) none = [] := by rw [all_pointsO]

@[simp]
theorem all_pointsO_some (u : Quadtree T) : all_pointsO (some u) = all_points u := by
  rw [all_pointsO]

theorem wfO_some_iff {o : Option (Quadtree T)} {r : Qrect} {c : Nat} :
    wfO o r c = true ↔
      ∃ u, o = some u ∧ u.boundary = r ∧ u.capacity = c ∧ wf u = true := by
  cases o with
  | none => simp [wfO]
  | some u => simp [wfO, and_assoc]

theorem wf_mk_iff {b : Qrect} {c : Nat} {ps : List (Point T)} {d : Bool}
    {tl tr bl br : Option (Quadtree T)} :
    wf (mk b c ps d tl tr bl br) = true ↔
      (∀ p ∈ ps, b.contains_point p = true) ∧ ps.length ≤ c ∧
      (d = true →
        ps.length = c ∧ wfO tl (tl_rect b) c = true ∧ wfO tr (tr_rect b) c = true ∧
        wfO bl (bl_rect b) c = true ∧ wfO br (br_rect b) c = true) ∧
      (d = false → tl = none ∧ tr = none ∧ bl = none ∧ br = none) := by
  cases d <;>
    simp [wf, List.all_eq_true, Option.isNone_iff_eq_none, and_assoc]

theorem wf_new (b : Qrect) (c : Nat) : wf (new b c : Quadtree T) = true := by
  simp [new, wf_mk_iff]

/-- Every point stored anywhere in a well-formed subtree lies within the
subtree root's boundary. -/
theorem all_points_contains (t : Quadtree T) (hwf : wf t = true) :
    ∀ p ∈ all_points t, t.boundary.contains_point p = true := by
  induction t using strong_ind with
  | step b c ps d tl tr bl br ihtl ihtr ihbl ihbr =>
    rw [wf_mk_iff] at hwf
    obtain ⟨hps, -, hdiv, hund⟩ := hwf
    intro p hp
    simp only [all_points_mk, List.mem_append, boundary_mk] at hp ⊢
    cases d with
    | false =>
      obtain ⟨h1, h2, h3, h4⟩ := hund rfl
      subst h1; subst h2; subst h3; subst h4
      simp only [all_pointsO_none, List.not_mem_nil, or_false] at hp
      exact hps p hp
    | true =>
      obtain ⟨-, w1, w2, w3, w4⟩ := hdiv rfl
      rw [wfO_some_iff] at w1 w2 w3 w4
      obtain ⟨u1, e1, hb1, -, hw1⟩ := w1
      obtain ⟨u2, e2, hb2, -, hw2⟩ := w2
      obtain ⟨u3, e3, hb3, -, hw3⟩ := w3
      obtain ⟨u4, e4, hb4, -, hw4⟩ := w4
      subst e1; subst e2; subst e3; subst e4
      simp only [all_pointsO_some] at hp
      rcases hp with (((hp | hp) | hp) | hp) | hp
      · exact hps p hp
      · exact quadrant_subset (Or.inl hb1) (ihtl u1 rfl hw1 p hp)
      · exact quadrant_subset (Or.inr (Or.inl hb2)) (ihtr u2 rfl hw2 p hp)
      · exact quadrant_subset (Or.inr (Or.inr (Or.inl hb3))) (ihbl u3 rfl hw3 p hp)
      · exact quadrant_subset (Or.inr (Or.inr (Or.inr hb4))) (ihbr u4 rfl hw4 p hp)

@[simp]
theorem query_rectO_none (range : Qrect) :
    query_rectO (T := T) none range = none := by rw [query_rectO]

@[simp]
theorem query_rectO_some (u : Quadtree T) (range : Qrect) :
    query_rectO (some u) range = query_rect u range := by rw [query_rectO]

@[simp]
theorem query_rect_specO_none (range : Qrect) :
    query_rect_specO (T := T) none range = [] := by rw [query_rect_specO]

@[simp]
theorem query_rect_specO_some (u : Quadtree T) (range : Qrect) :
    query_rect_specO (some u) range = query_rect_spec u range := by
  rw [query_rect_specO]

/-- Every point a rectangle query returns satisfies the range's containment
test; holds for arbitrary trees, well-formed or not. -/
theorem mem_query_rect (t : Quadtree T) :
    ∀ (range : Qrect) (l : List (Point T)) (p : Point T),
      query_rect t range = some l → p ∈ l → range.contains_point p = true := by
  induction t using strong_ind with
  | step b c ps d tl tr bl br ihtl ihtr ihbl ihbr =>
    intro range l p hq hp
    rw [query_rect] at hq
    by_cases hint : b.intersects_rect range = true
    · simp only [hint, Bool.not_true, Bool.false_eq_true, if_false, ite_false] at hq
      cases d with
      | false =>
        simp only [if_false, Bool.false_eq_true] at hq
        obtain rfl : ps.filter (fun q => range.contains_point q) = l := by
          simpa using hq
        exact (List.mem_filter.mp hp).2
      | true =>
        simp only [if_true] at hq
        cases h1 : query_rectO tl range with
        | none => rw [h1] at hq; exact absurd hq (by simp)
        | some l1 =>
          rw [h1] at hq
          cases h2 : query_rectO tr range with
          | none => rw [h2] at hq; exact absurd hq (by simp)
          | some l2 =>
            rw [h2] at hq
            cases h3 : query_rectO bl range with
            | none => rw [h3] at hq; exact absurd hq (by simp)
            | some l3 =>
              rw [h3] at hq
              cases h4 : query_rectO br range with
              | none => rw [h4] at hq; exact absurd hq (by simp)
              | some l4 =>
                rw [h4] at hq
                obtain rfl : ps.filter (fun q => range.contains_point q) ++ l1 ++ l2 ++ l3 ++ l4 = l := by
                  simpa using hq
                simp only [List.mem_append] at hp
                rcases hp with (((hp | hp) | hp) | hp) | hp
                · exact (List.mem_filter.mp hp).2
                · cases tl with
                  | none => simp at h1
                  | some u => exact ihtl u rfl range l1 p (by simpa using h1) hp
                · cases tr with
                  | none => simp at h2
                  | some u => exact ihtr u rfl range l2 p (by simpa using h2) hp
                · cases bl with
                  | none => simp at h3
                  | some u => exact ihbl u rfl range l3 p (by simpa using h3) hp
                · cases br with
                  | none => simp at h4
                  | some u => exact ihbr u rfl range l4 p (by simpa using h4) hp
    · simp only [Bool.not_eq_true] at hint
      simp only [hint, Bool.not_false, if_true, ite_true] at hq
      obtain rfl : ([] : List (Point T)) = l := by simpa using hq
      exact absurd hp (List.not_mem_nil p)

/-- The structural query result is the filtered flat point list, in
traversal order. -/
theorem query_rect_spec_eq_filter (t : Quadtree T) (range : Qrect) :
    query_rect_spec t range =
      (all_points t).filter fun p => range.contains_point p := by
  induction t using strong_ind with
  | step b c ps d tl tr bl br ihtl ihtr ihbl ihbr =>
    have htl : query_rect_specO tl range =
        (all_pointsO tl).filter fun p => range.contains_point p := by
      cases tl with
      | none => simp
      | some u => simpa using ihtl u rfl
    have htr : query_rect_specO tr range =
        (all_pointsO tr).filter fun p => range.contains_point p := by
      cases tr with
      | none => simp
      | some u => simpa using ihtr u rfl
    have hbl : query_rect_specO bl range =
        (all_pointsO bl).filter fun p => range.contains_point p := by
      cases bl with
      | none => simp
      | some u => simpa using ihbl u rfl
    have hbr : query_rect_specO br range =
        (all_pointsO br).filter fun p => range.contains_point p := by
      cases br with
      | none => simp
      | some u => simpa using ihbr u rfl
    rw [query_rect_spec]
    simp only [all_points_mk, List.filter_append, htl, htr, hbl, hbr]

/-- On a well-formed tree the rectangle query never panics and computes
exactly the structural (unpruned) result: pruning by the intersection test
loses no matching point. -/
theorem query_rect_eq_spec (t : Quadtree T) (hwf : wf t = true) :
    ∀ range : Qrect, query_rect t range = some (query_rect_spec t range) := by
  induction t using strong_ind with
  | step b c ps d tl tr bl br ihtl ihtr ihbl ihbr =>
    intro range
    by_cases hint : b.intersects_rect range = true
    · rw [wf_mk_iff] at hwf
      obtain ⟨hps, -, hdiv, hund⟩ := hwf
      rw [query_rect, query_rect_spec]
      simp only [hint, Bool.not_true, Bool.false_eq_true, if_false]
      cases d with
      | false =>
        obtain ⟨h1, h2, h3, h4⟩ := hund rfl
        subst h1; subst h2; subst h3; subst h4
        simp
      | true =>
        obtain ⟨-, w1, w2, w3, w4⟩ := hdiv rfl
        rw [wfO_some_iff] at w1 w2 w3 w4
        obtain ⟨u1, e1, -, -, hw1⟩ := w1
        obtain ⟨u2, e2, -, -, hw2⟩ := w2
        obtain ⟨u3, e3, -, -, hw3⟩ := w3
        obtain ⟨u4, e4, -, -, hw4⟩ := w4
        subst e1; subst e2; subst e3; subst e4
        rw [if_pos rfl]
        simp only [query_rectO_some, query_rect_specO_some,
          ihtl u1 rfl hw1 range, ihtr u2 rfl hw2 range,
          ihbl u3 rfl hw3 range, ihbr u4 rfl hw4 range]
    · simp only [Bool.not_eq_true] at hint
      have hempty : query_rect_spec (mk b c ps d tl tr bl br) range = [] := by
        rw [query_rect_spec_eq_filter]
        rw [List.filter_eq_nil_iff]
        intro p hp
        have hcont := all_points_contains (mk b c ps d tl tr bl br) ?_ p hp
        · intro hr
          have := contains_both_intersects (boundary_mk b c ps d tl tr bl br ▸ hcont) hr
          rw [this] at hint
          exact Bool.true_eq_false.mp hint
        · rw [wf_mk_iff]; exact hwf ▸ wf_mk_iff.mp hwf
      rw [hempty, query_rect]
      simp [hint]

theorem insert_zero (t : Quadtree T) (p : Point T) : insert 0 t p = none := by
  rw [insert]

theorem insert_succ (fuel : Nat) (t : Quadtree T) (p : Point T) :
    insert (fuel + 1) t p =
      if ! t.boundary.contains_point p then some (t, false)
      else if t.points.length < t.capacity then some (t.push_point p, true)
      else insert_kids fuel (if t.divided then t else t.subdivide) p := by
  rw [insert]

/-- A successful run of the child-attempt phase preserves the node's own
fields; only child slots change. -/
theorem insert_kids_frame {fuel : Nat} {t t' : Quadtree T} {p : Point T} {bb : Bool}
    (h : insert_kids fuel t p = some (t', bb)) :
    t'.boundary = t.boundary ∧ t'.capacity = t.capacity ∧
      t'.points = t.points ∧ t'.divided = t.divided := by
  cases t with
  | mk b c ps d tl tr bl br =>
    cases tl with
    | none => simp [insert_kids] at h
    | some u1 =>
    cases tr with
    | none => simp [insert_kids] at h
    | some u2 =>
    cases bl with
    | none => simp [insert_kids] at h
    | some u3 =>
    cases br with
    | none => simp [insert_kids] at h
    | some u4 =>
    rw [insert_kids] at h
    cases h1 : insert fuel u1 p with
    | none => rw [h1] at h; simp at h
    | some r1 =>
    rw [h1] at h
    obtain ⟨u1', b1⟩ := r1
    cases b1 with
    | true =>
      obtain ⟨rfl, rfl⟩ : mk b c ps d (some u1') (some u2) (some u3) (some u4) = t' ∧ true = bb := by
        simpa using h
      simp
    | false =>
    simp only [Bool.false_eq_true, if_false] at h
    cases h2 : insert fuel u2 p with
    | none => rw [h2] at h; simp at h
    | some r2 =>
    rw [h2] at h
    obtain ⟨u2', b2⟩ := r2
    cases b2 with
    | true =>
      obtain ⟨rfl, rfl⟩ : mk b c ps d (some u1') (some u2') (some u3) (some u4) = t' ∧ true = bb := by
        simpa using h
      simp
    | false =>
    simp only [Bool.false_eq_true, if_false] at h
    cases h3 : insert fuel u3 p with
    | none => rw [h3] at h; simp at h
    | some r3 =>
    rw [h3] at h
    obtain ⟨u3', b3⟩ := r3
    cases b3 with
    | true =>
      obtain ⟨rfl, rfl⟩ : mk b c ps d (some u1') (some u2') (some u3') (some u4) = t' ∧ true = bb := by
        simpa using h
      simp
    | false =>
    simp only [Bool.false_eq_true, if_false] at h
    cases h4 : insert fuel u4 p with
    | none => rw [h4] at h; simp at h
    | some r4 =>
    rw [h4] at h
    obtain ⟨u4', b4⟩ := r4
    obtain ⟨rfl, rfl⟩ : mk b c ps d (some u1') (some u2') (some u3') (some u4') = t' ∧ b4 = bb := by
      simpa using h
    simp

theorem subdivide_fields (t : Quadtree T) :
    (subdivide t).boundary = t.boundary ∧ (subdivide t).capacity = t.capacity ∧
      (subdivide t).points = t.points ∧ (subdivide t).divided = true := by
  cases t with
  | mk b c ps d tl tr bl br => simp [subdivide]

/-- A completed insertion never touches the node's boundary or capacity and
can only append to the node's own point list. -/
theorem insert_frame {fuel : Nat} {t t' : Quadtree T} {p : Point T} {bb : Bool}
    (h : insert fuel t p = some (t', bb)) :
    t'.boundary = t.boundary ∧ t'.capacity = t.capacity ∧
      ∃ l, t'.points = t.points ++ l := by
  cases fuel with
  | zero => rw [insert_zero] at h; exact absurd h (by simp)
  | succ fuel =>
    rw [insert_succ] at h
    by_cases hc : t.boundary.contains_point p = true
    · simp only [hc, Bool.not_true, Bool.false_eq_true, if_false] at h
      by_cases hl : t.points.length < t.capacity
      · rw [if_pos hl] at h
        obtain ⟨rfl, rfl⟩ : t.push_point p = t' ∧ true = bb := by simpa using h
        cases t with
        | mk b c ps d tl tr bl br => exact ⟨rfl, rfl, [p], rfl⟩
      · rw [if_neg hl] at h
        have hk := insert_kids_frame h
        by_cases hd : t.divided = true
        · rw [if_pos hd] at hk
          exact ⟨hk.1, hk.2.1, [], by simpa using hk.2.2.1⟩
        · simp only [hd, if_false, Bool.false_eq_true] at hk
          obtain ⟨hb, hcap, hps, -⟩ := hk
          obtain ⟨sb, sc, sp, -⟩ := subdivide_fields t
          exact ⟨hb.trans sb, hcap.trans sc, [], by simp [hps, sp]⟩
    · simp only [Bool.not_eq_true] at hc
      simp only [hc, Bool.not_false, if_true] at h
      obtain ⟨rfl, rfl⟩ : t = t' ∧ false = bb := by simpa using h
      exact ⟨rfl, rfl, [], by simp⟩

/-- Appending to a non-full well-formed node keeps it well-formed. -/
theorem wf_push_point {t : Quadtree T} {p : Point T} (hwf : wf t = true)
    (hc : t.boundary.contains_point p = true)
    (hl : t.points.length < t.capacity) : wf (t.push_point p) = true := by
  cases t with
  | mk b c ps d tl tr bl br =>
    rw [wf_mk_iff] at hwf
    obtain ⟨hps, hlen, hdiv, hund⟩ := hwf
    simp only [points_mk, capacity_mk] at hl
    cases d with
    | true =>
      have := (hdiv rfl).1
      omega
    | false =>
      obtain ⟨h1, h2, h3, h4⟩ := hund rfl
      subst h1; subst h2; subst h3; subst h4
      rw [push_point, wf_mk_iff]
      refine ⟨?_, ?_, by simp, fun _ => ⟨rfl, rfl, rfl, rfl⟩⟩
      · intro q hq
        rcases List.mem_append.mp hq with hq | hq
        · exact hps q hq
        · simp only [List.mem_singleton] at hq
          subst hq
          simpa using hc
      · simp only [List.length_append, List.length_singleton]
        omega

/-- Subdividing a full, undivided well-formed node yields a well-formed
node. -/
theorem wf_subdivide {t : Quadtree T} (hwf : wf t = true)
    (hfull : ¬ t.points.length < t.capacity) (hd : t.divided = false) :
    wf t.subdivide = true := by
  cases t with
  | mk b c ps d tl tr bl br =>
    rw [wf_mk_iff] at hwf
    obtain ⟨hps, hlen, -, -⟩ := hwf
    simp only [points_mk, capacity_mk] at hfull
    rw [subdivide, wf_mk_iff]
    refine ⟨hps, hlen, fun _ => ⟨by omega, ?_, ?_, ?_, ?_⟩, by simp⟩
    · exact wfO_some_iff.mpr ⟨new (tl_rect b) c, rfl, rfl, rfl, wf_new _ _⟩
    · exact wfO_some_iff.mpr ⟨new (tr_rect b) c, rfl, rfl, rfl, wf_new _ _⟩
    · exact wfO_some_iff.mpr ⟨new (bl_rect b) c, rfl, rfl, rfl, wf_new _ _⟩
    · exact wfO_some_iff.mpr ⟨new (br_rect b) c, rfl, rfl, rfl, wf_new _ _⟩

/-- The child-attempt phase preserves well-formedness, given that the
recursive insertions at the next fuel level do. -/
theorem insert_kids_wf {fuel : Nat} {q t' : Quadtree T} {p : Point T} {bb : Bool}
    (IH : ∀ (u u' : Quadtree T) (b2 : Bool),
      wf u = true → insert fuel u p = some (u', b2) → wf u' = true)
    (hq : wf q = true) (h : insert_kids fuel q p = some (t', bb)) :
    wf t' = true := by
  cases q with
  | mk b c ps d tl tr bl br =>
    cases tl with
    | none => simp [insert_kids] at h
    | some u1 =>
    cases tr with
    | none => simp [insert_kids] at h
    | some u2 =>
    cases bl with
    | none => simp [insert_kids] at h
    | some u3 =>
    cases br with
    | none => simp [insert_kids] at h
    | some u4 =>
    rw [wf_mk_iff] at hq
    obtain ⟨hps, hlen, hdiv, hund⟩ := hq
    cases d with
    | false => exact absurd (hund rfl).1 (by simp)
    | true =>
    obtain ⟨hfull, w1, w2, w3, w4⟩ := hdiv rfl
    have wo : ∀ (u u' : Quadtree T) (b2 : Bool) (r : Qrect),
        wfO (some u) r c = true → insert fuel u p = some (u', b2) →
        wfO (some u') r c = true := by
      intro u u' b2 r hu hin
      rw [wfO_some_iff] at hu ⊢
      obtain ⟨v, hv, hvb, hvc, hvw⟩ := hu
      have hvu : v = u := by simpa using hv.symm
      subst hvu
      obtain ⟨fb, fc, -⟩ := insert_frame hin
      exact ⟨u', rfl, fb.trans hvb, fc.trans hvc, IH v u' b2 hvw hin⟩
    have final : ∀ (v1 v2 v3 v4 : Quadtree T) (b4 : Bool),
        wfO (some v1) (tl_rect b) c = true → wfO (some v2) (tr_rect b) c = true →
        wfO (some v3) (bl_rect b) c = true → wfO (some v4) (br_rect b) c = true →
        wf (mk b c ps true (some v1) (some v2) (some v3) (some v4)) = true := by
      intro v1 v2 v3 v4 b4 g1 g2 g3 g4
      rw [wf_mk_iff]
      exact ⟨hps, hlen, fun _ => ⟨hfull, g1, g2, g3, g4⟩, by simp⟩
    rw [insert_kids] at h
    cases h1 : insert fuel u1 p with
    | none => rw [h1] at h; simp at h
    | some r1 =>
    rw [h1] at h
    obtain ⟨u1', b1⟩ := r1
    have w1' := wo u1 u1' b1 (tl_rect b) w1 h1
    cases b1 with
    | true =>
      obtain ⟨rfl, rfl⟩ : mk b c ps true (some u1') (some u2) (some u3) (some u4) = t' ∧ true = bb := by
        simpa using h
      exact final u1' u2 u3 u4 true w1' w2 w3 w4
    | false =>
    simp only [Bool.false_eq_true, if_false] at h
    cases h2 : insert fuel u2 p with
    | none => rw [h2] at h; simp at h
    | some r2 =>
    rw [h2] at h
    obtain ⟨u2', b2⟩ := r2
    have w2' := wo u2 u2' b2 (tr_rect b) w2 h2
    cases b2 with
    | true =>
      obtain ⟨rfl, rfl⟩ : mk b c ps true (some u1') (some u2') (some u3) (some u4) = t' ∧ true = bb := by
        simpa using h
      exact final u1' u2' u3 u4 true w1' w2' w3 w4
    | false =>
    simp only [Bool.false_eq_true, if_false] at h
    cases h3 : insert fuel u3 p with
    | none => rw [h3] at h; simp at h
    | some r3 =>
    rw [h3] at h
    obtain ⟨u3', b3⟩ := r3
    have w3' := wo u3 u3' b3 (bl_rect b) w3 h3
    cases b3 with
    | true =>
      obtain ⟨rfl, rfl⟩ : mk b c ps true (some u1') (some u2') (some u3') (some u4) = t' ∧ true = bb := by
        simpa using h
      exact final u1' u2' u3' u4 true w1' w2' w3' w4
    | false =>
    simp only [Bool.false_eq_true, if_false] at h
    cases h4 : insert fuel u4 p with
    | none => rw [h4] at h; simp at h
    | some r4 =>
    rw [h4] at h
    obtain ⟨u4', b4⟩ := r4
    have w4' := wo u4 u4' b4 (br_rect b) w4 h4
    obtain ⟨rfl, rfl⟩ : mk b c ps true (some u1') (some u2') (some u3') (some u4') = t' ∧ b4 = bb := by
      simpa using h
    exact final u1' u2' u3' u4' b4 w1' w2' w3' w4'

/-- A completed insertion preserves well-formedness. -/
theorem insert_wf : ∀ (fuel : Nat) (t t' : Quadtree T) (p : Point T) (bb : Bool),
    wf t = true → insert fuel t p = some (t', bb) → wf t' = true := by
  intro fuel
  induction fuel with
  | zero => intro t t' p bb hwf h; rw [insert_zero] at h; simp at h
  | succ fuel ih =>
    intro t t' p bb hwf h
    rw [insert_succ] at h
    by_cases hc : t.boundary.contains_point p = true
    · simp only [hc, Bool.not_true, Bool.false_eq_true, if_false] at h
      by_cases hl : t.points.length < t.capacity
      · rw [if_pos hl] at h
        obtain ⟨rfl, rfl⟩ : t.push_point p = t' ∧ true = bb := by simpa using h
        exact wf_push_point hwf hc hl
      · rw [if_neg hl] at h
        by_cases hd : t.divided = true
        · simp only [hd, if_true] at h
          exact insert_kids_wf (fun u u' b2 => ih u u' p b2) hwf h
        · simp only [hd, Bool.false_eq_true, if_false] at h
          have hd' : t.divided = false := by simpa using hd
          exact insert_kids_wf (fun u u' b2 => ih u u' p b2)
            (wf_subdivide hwf hl hd') h
    · simp only [Bool.not_eq_true] at hc
      simp only [hc, Bool.not_false, if_true] at h
      obtain ⟨rfl, rfl⟩ : t = t' ∧ false = bb := by simpa using h
      exact hwf

/-- The reset operation produces a freshly constructed node. -/
theorem empty_eq_new (t : Quadtree T) : t.empty = new t.boundary t.capacity := by
  cases t with
  | mk b c ps d tl tr bl br => rfl

/-- Every reachable tree is well-formed. -/
theorem reachable_wf {t : Quadtree T} (h : Reachable t) : wf t = true := by
  induction h with
  | new b c => exact wf_new b c
  | ins hr hin ih => exact insert_wf _ _ _ _ _ ih hin
  | rst hr ih => rw [empty_eq_new]; exact wf_new _ _

theorem height_ge_one (t : Quadtree T) : 1 ≤ height t := by
  cases t with
  | mk b c ps d tl tr bl br => rw [height]; omega

/-- Inserting into a fresh node with positive capacity returns immediately:
acceptance on containment (storing the point), rejection otherwise. -/
theorem insert_new_eq {fuel : Nat} {r : Qrect} {c : Nat} {p : Point T}
    (hc : 1 ≤ c) :
    insert (fuel + 1) (new r c : Quadtree T) p =
      if r.contains_point p = true
        then some (mk r c [p] false none none none none, true)
        else some (new r c, false) := by
  rw [insert_succ]
  rw [show (new r c : Quadtree T).boundary = r from rfl,
    show (new r c : Quadtree T).points = [] from rfl,
    show (new r c : Quadtree T).capacity = c from rfl]
  by_cases h : r.contains_point p = true
  · rw [h, if_pos rfl]
    simp only [Bool.not_true, Bool.false_eq_true, if_false, List.length_nil]
    rw [if_pos (by omega)]
    rfl
  · rw [Bool.not_eq_true] at h
    rw [h]
    simp

/-- Existence form of `insert_new_eq`. -/
theorem insert_new_pair {fuel : Nat} {r : Qrect} {c : Nat} {p : Point T}
    (hc : 1 ≤ c) (hf : 1 ≤ fuel) :
    ∃ v', insert fuel (new r c) p = some (v', r.contains_point p) := by
  obtain ⟨f, rfl⟩ : ∃ f, fuel = f + 1 := ⟨fuel - 1, by omega⟩
  rw [insert_new_eq hc]
  by_cases h : r.contains_point p = true
  · rw [h, if_pos rfl]
    exact ⟨_, rfl⟩
  · rw [Bool.not_eq_true] at h
    rw [h, if_neg (by simp)]
    exact ⟨_, rfl⟩

/-- If each child-insertion returns its own containment verdict and the
children cover the four quadrants, the child-attempt phase accepts any
point the parent boundary contains. -/
theorem insert_kids_success {fuel : Nat} {b : Qrect} {c : Nat}
    {ps : List (Point T)} {d : Bool} {v1 v2 v3 v4 : Quadtree T} {p : Point T}
    (hb : b.contains_point p = true)
    (hb1 : v1.boundary = tl_rect b) (hb2 : v2.boundary = tr_rect b)
    (hb3 : v3.boundary = bl_rect b) (hb4 : v4.boundary = br_rect b)
    (e1 : ∃ v', insert fuel v1 p = some (v', v1.boundary.contains_point p))
    (e2 : ∃ v', insert fuel v2 p = some (v', v2.boundary.contains_point p))
    (e3 : ∃ v', insert fuel v3 p = some (v', v3.boundary.contains_point p))
    (e4 : ∃ v', insert fuel v4 p = some (v', v4.boundary.contains_point p)) :
    ∃ t', insert_kids fuel (mk b c ps d (some v1) (some v2) (some v3) (some v4)) p =
      some (t', true) := by
  obtain ⟨v1', h1⟩ := e1
  obtain ⟨v2', h2⟩ := e2
  obtain ⟨v3', h3⟩ := e3
  obtain ⟨v4', h4⟩ := e4
  rw [hb1] at h1
  rw [hb2] at h2
  rw [hb3] at h3
  rw [hb4] at h4
  rw [insert_kids]
  by_cases c1 : (tl_rect b).contains_point p = true
  · rw [c1] at h1
    refine ⟨mk b c ps d (some v1') (some v2) (some v3) (some v4), ?_⟩
    rw [h1]
    simp
  · rw [Bool.not_eq_true] at c1
    rw [c1] at h1
    by_cases c2 : (tr_rect b).contains_point p = true
    · rw [c2] at h2
      refine ⟨mk b c ps d (some v1') (some v2') (some v3) (some v4), ?_⟩
      rw [h1]
      simp only [Bool.false_eq_true, if_false]
      rw [h2]
      simp
    · rw [Bool.not_eq_true] at c2
      rw [c2] at h2
      by_cases c3 : (bl_rect b).contains_point p = true
      · rw [c3] at h3
        refine ⟨mk b c ps d (some v1') (some v2') (some v3') (some v4), ?_⟩
        rw [h1]
        simp only [Bool.false_eq_true, if_false]
        rw [h2]
        simp only [Bool.false_eq_true, if_false]
        rw [h3]
        simp
      · rw [Bool.not_eq_true] at c3
        rw [c3] at h3
        by_cases c4 : (br_rect b).contains_point p = true
        · rw [c4] at h4
          refine ⟨mk b c ps d (some v1') (some v2') (some v3') (some v4'), ?_⟩
          rw [h1]
          simp only [Bool.false_eq_true, if_false]
          rw [h2]
          simp only [Bool.false_eq_true, if_false]
          rw [h3]
          simp only [Bool.false_eq_true, if_false]
          rw [h4]
        · rw [Bool.not_eq_true] at c4
          rcases quadrant_cover hb with hq | hq | hq | hq
          · rw [hq] at c1; cases c1
          · rw [hq] at c2; cases c2
          · rw [hq] at c3; cases c3
          · rw [hq] at c4; cases c4

/-- With positive capacity and fuel at least one more than the height, a
completed insertion always results and returns exactly the boundary
containment verdict: the fall-through `return false` after the four child
attempts is never taken. -/
theorem insert_success : ∀ (fuel : Nat) (t : Quadtree T) (p : Point T),
    wf t = true → 1 ≤ t.capacity → height t + 1 ≤ fuel →
    ∃ t', insert fuel t p = some (t', t.boundary.contains_point p) := by
  intro fuel
  induction fuel with
  | zero =>
    intro t p hwf hc hf
    exact absurd hf (by omega)
  | succ fuel ih =>
    intro t p hwf hc hf
    rw [insert_succ]
    by_cases hcp : t.boundary.contains_point p = true
    · rw [hcp]
      by_cases hl : t.points.length < t.capacity
      · rw [if_pos hl]
        exact ⟨t.push_point p, by simp⟩
      · rw [if_neg hl]
        have hfuel1 : 1 ≤ fuel := by
          have := height_ge_one t
          omega
        by_cases hd : t.divided = true
        · cases t with
          | mk b c ps d tl tr bl br =>
            simp only [divided_mk] at hd
            subst hd
            rw [wf_mk_iff] at hwf
            obtain ⟨hps, hlen, hdiv, -⟩ := hwf
            obtain ⟨-, w1, w2, w3, w4⟩ := hdiv rfl
            rw [wfO_some_iff] at w1 w2 w3 w4
            obtain ⟨v1, rfl, bb1, cc1, ww1⟩ := w1
            obtain ⟨v2, rfl, bb2, cc2, ww2⟩ := w2
            obtain ⟨v3, rfl, bb3, cc3, ww3⟩ := w3
            obtain ⟨v4, rfl, bb4, cc4, ww4⟩ := w4
            simp only [capacity_mk] at hc
            have hh : ∀ v : Quadtree T,
                top_left (mk b c ps true (some v1) (some v2) (some v3) (some v4)) = some v ∨
                top_right (mk b c ps true (some v1) (some v2) (some v3) (some v4)) = some v ∨
                bottom_left (mk b c ps true (some v1) (some v2) (some v3) (some v4)) = some v ∨
                bottom_right (mk b c ps true (some v1) (some v2) (some v3) (some v4)) = some v →
                height v + 1 ≤ fuel := by
              intro v hv
              have hlt : height v < height (mk b c ps true (some v1) (some v2) (some v3) (some v4)) := by
                apply height_child_lt
                simpa using hv
              omega
            rw [if_pos (show (mk b c ps true (some v1) (some v2) (some v3) (some v4)).divided = true from rfl)]
            refine insert_kids_success (by simpa using hcp) bb1 bb2 bb3 bb4 ?_ ?_ ?_ ?_
            · exact ih v1 p ww1 (cc1 ▸ hc) (hh v1 (Or.inl rfl))
            · exact ih v2 p ww2 (cc2 ▸ hc) (hh v2 (Or.inr (Or.inl rfl)))
            · exact ih v3 p ww3 (cc3 ▸ hc) (hh v3 (Or.inr (Or.inr (Or.inl rfl))))
            · exact ih v4 p ww4 (cc4 ▸ hc) (hh v4 (Or.inr (Or.inr (Or.inr rfl))))
        · simp only [hd, Bool.false_eq_true, if_false]
          cases t with
          | mk b c ps d tl tr bl br =>
            simp only [divided_mk, Bool.not_eq_true] at hd
            subst hd
            rw [wf_mk_iff] at hwf
            obtain ⟨-, -, -, hund⟩ := hwf
            obtain ⟨rfl, rfl, rfl, rfl⟩ := hund rfl
            simp only [capacity_mk] at hc
            rw [subdivide]
            refine insert_kids_success (by simpa using hcp) rfl rfl rfl rfl ?_ ?_ ?_ ?_ <;>
              exact insert_new_pair hc hfuel1
    · rw [Bool.not_eq_true] at hcp
      rw [hcp]
      exact ⟨t, by simp⟩

/-- The child-attempt phase changes the total stored-point count by one
exactly on acceptance, given that recursive insertions at the next fuel
level do. -/
theorem insert_kids_count {fuel : Nat} {q t' : Quadtree T} {p : Point T} {bb : Bool}
    (IH : ∀ (u u' : Quadtree T) (b2 : Bool),
      wf u = true → insert fuel u p = some (u', b2) →
      (all_points u').length = (all_points u).length + (if b2 then 1 else 0))
    (hq : wf q = true) (h : insert_kids fuel q p = some (t', bb)) :
    (all_points t').length = (all_points q).length + (if bb then 1 else 0) := by
  cases q with
  | mk b c ps d tl tr bl br =>
    cases tl with
    | none => simp [insert_kids] at h
    | some u1 =>
    cases tr with
    | none => simp [insert_kids] at h
    | some u2 =>
    cases bl with
    | none => simp [insert_kids] at h
    | some u3 =>
    cases br with
    | none => simp [insert_kids] at h
    | some u4 =>
    rw [wf_mk_iff] at hq
    obtain ⟨-, -, hdiv, hund⟩ := hq
    cases d with
    | false => exact absurd (hund rfl).1 (by simp)
    | true =>
    obtain ⟨-, w1, w2, w3, w4⟩ := hdiv rfl
    have hw : ∀ (u : Quadtree T) (r : Qrect), wfO (some u) r c = true → wf u = true := by
      intro u r hu
      obtain ⟨v, hv, -, -, hvw⟩ := wfO_some_iff.mp hu
      obtain rfl : u = v := by simpa using hv
      exact hvw
    rw [insert_kids] at h
    cases h1 : insert fuel u1 p with
    | none => rw [h1] at h; simp at h
    | some r1 =>
    rw [h1] at h
    obtain ⟨u1', b1⟩ := r1
    have k1 := IH u1 u1' b1 (hw u1 _ w1) h1
    cases b1 with
    | true =>
      obtain ⟨rfl, rfl⟩ : mk b c ps true (some u1') (some u2) (some u3) (some u4) = t' ∧ true = bb := by
        simpa using h
      simp only [all_points_mk, all_pointsO_some, List.length_append, if_true] at k1 ⊢
      omega
    | false =>
    simp only [Bool.false_eq_true, if_false] at h k1
    cases h2 : insert fuel u2 p with
    | none => rw [h2] at h; simp at h
    | some r2 =>
    rw [h2] at h
    obtain ⟨u2', b2⟩ := r2
    have k2 := IH u2 u2' b2 (hw u2 _ w2) h2
    cases b2 with
    | true =>
      obtain ⟨rfl, rfl⟩ : mk b c ps true (some u1') (some u2') (some u3) (some u4) = t' ∧ true = bb := by
        simpa using h
      simp only [all_points_mk, all_pointsO_some, List.length_append, if_true] at k1 k2 ⊢
      omega
    | false =>
    simp only [Bool.false_eq_true, if_false] at h k2
    cases h3 : insert fuel u3 p with
    | none => rw [h3] at h; simp at h
    | some r3 =>
    rw [h3] at h
    obtain ⟨u3', b3⟩ := r3
    have k3 := IH u3 u3' b3 (hw u3 _ w3) h3
    cases b3 with
    | true =>
      obtain ⟨rfl, rfl⟩ : mk b c ps true (some u1') (some u2') (some u3') (some u4) = t' ∧ true = bb := by
        simpa using h
      simp only [all_points_mk, all_pointsO_some, List.length_append, if_true] at k1 k2 k3 ⊢
      omega
    | false =>
    simp only [Bool.false_eq_true, if_false] at h k3
    cases h4 : insert fuel u4 p with
    | none => rw [h4] at h; simp at h
    | some r4 =>
    rw [h4] at h
    obtain ⟨u4', b4⟩ := r4
    have k4 := IH u4 u4' b4 (hw u4 _ w4) h4
    obtain ⟨rfl, rfl⟩ : mk b c ps true (some u1') (some u2') (some u3') (some u4') = t' ∧ b4 = bb := by
      simpa using h
    cases b4 with
    | true =>
      simp only [all_points_mk, all_pointsO_some, List.length_append, if_true] at k1 k2 k3 k4 ⊢
      omega
    | false =>
      simp only [Bool.false_eq_true, if_false] at k4
      simp only [all_points_mk, all_pointsO_some, List.length_append, Bool.false_eq_true, if_false] at k1 k2 k3 k4 ⊢
      omega

/-- A completed insertion grows the total stored-point count by one exactly
when it returns `true`. -/
theorem insert_count : ∀ (fuel : Nat) (t t' : Quadtree T) (p : Point T) (bb : Bool),
    wf t = true → insert fuel t p = some (t', bb) →
    (all_points t').length = (all_points t).length + (if bb then 1 else 0) := by
  intro fuel
  induction fuel with
  | zero => intro t t' p bb hwf h; rw [insert_zero] at h; simp at h
  | succ fuel ih =>
    intro t t' p bb hwf h
    rw [insert_succ] at h
    by_cases hc : t.boundary.contains_point p = true
    · simp only [hc, Bool.not_true, Bool.false_eq_true, if_false] at h
      by_cases hl : t.points.length < t.capacity
      · rw [if_pos hl] at h
        obtain ⟨rfl, rfl⟩ : t.push_point p = t' ∧ true = bb := by simpa using h
        cases t with
        | mk b c ps d tl tr bl br =>
          simp only [push_point, all_points_mk, List.length_append, if_true,
            List.length_singleton]
          omega
      · rw [if_neg hl] at h
        by_cases hd : t.divided = true
        · simp only [hd, if_true] at h
          exact insert_kids_count (fun u u' b2 => ih u u' p b2) hwf h
        · simp only [hd, Bool.false_eq_true, if_false] at h
          have hd' : t.divided = false := by simpa using hd
          have hsub := insert_kids_count (fun u u' b2 => ih u u' p b2)
            (wf_subdivide hwf hl hd') h
          have : (all_points t.subdivide).length = (all_points t).length := by
            cases t with
            | mk b c ps d tl tr bl br =>
              simp only [divided_mk] at hd'
              subst hd'
              rw [wf_mk_iff] at hwf
              obtain ⟨-, -, -, hund⟩ := hwf
              obtain ⟨rfl, rfl, rfl, rfl⟩ := hund rfl
              rw [subdivide]
              simp [new]
          omega
    · simp only [Bool.not_eq_true] at hc
      simp only [hc, Bool.not_false, if_true] at h
      obtain ⟨rfl, rfl⟩ : t = t' ∧ false = bb := by simpa using h
      simp

/-- Over a whole list of insertions: well-formedness is maintained and the
stored-point count grows by exactly the number of accepted points. -/
theorem insert_all_wf_count : ∀ (ps : List (Point T)) (fuel : Nat) (t t' : Quadtree T) (n : Nat),
    wf t = true → insert_all fuel t ps = some (t', n) →
    wf t' = true ∧ (all_points t').length = (all_points t).length + n := by
  intro ps
  induction ps with
  | nil =>
    intro fuel t t' n hwf h
    rw [insert_all] at h
    obtain ⟨rfl, rfl⟩ : t = t' ∧ 0 = n := by simpa using h
    exact ⟨hwf, by simp⟩
  | cons p ps ih =>
    intro fuel t t' n hwf h
    rw [insert_all] at h
    cases h1 : insert fuel t p with
    | none => rw [h1] at h; simp at h
    | some r1 =>
    rw [h1] at h
    obtain ⟨t1, b1⟩ := r1
    dsimp only at h
    cases h2 : insert_all fuel t1 ps with
    | none => rw [h2] at h; simp at h
    | some r2 =>
    rw [h2] at h
    obtain ⟨t2, n2⟩ := r2
    obtain ⟨rfl, rfl⟩ : t2 = t' ∧ (if b1 then 1 else 0) + n2 = n := by simpa using h
    have hwf1 := insert_wf fuel t t1 p b1 hwf h1
    have hcnt1 := insert_count fuel t t1 p b1 hwf h1
    obtain ⟨hwf2, hcnt2⟩ := ih fuel t1 t2 n2 hwf1 h2
    exact ⟨hwf2, by omega⟩

/-- On a well-formed tree `collect` returns precisely the stored points in
traversal order. -/
theorem collect_eq_all_points (t : Quadtree T) (hwf : wf t = true) :
    collect t = some (all_points t) := by
  rw [collect, query_rect_eq_spec t hwf, query_rect_spec_eq_filter]
  congr 1
  refine List.filter_eq_self.mpr ?_
  intro p hp
  exact all_points_contains t hwf p hp

@[simp]
theorem inv_c9O_none : inv_c9O (T := T) none = true := by rw [inv_c9O]

@[simp]
theorem inv_c9O_some (u : Quadtree T) : inv_c9O (some u) = inv_c9 u := by
  rw [inv_c9O]

/-- Well-formedness entails the structural capacity/division invariant. -/
theorem wf_inv_c9 (t : Quadtree T) (hwf : wf t = true) : inv_c9 t = true := by
  induction t using strong_ind with
  | step b c ps d tl tr bl br ihtl ihtr ihbl ihbr =>
    rw [wf_mk_iff] at hwf
    obtain ⟨-, hlen, hdiv, hund⟩ := hwf
    rw [inv_c9]
    cases d with
    | false =>
      obtain ⟨rfl, rfl, rfl, rfl⟩ := hund rfl
      simp [hlen]
    | true =>
      obtain ⟨hfull, w1, w2, w3, w4⟩ := hdiv rfl
      obtain ⟨u1, rfl, -, -, hw1⟩ := wfO_some_iff.mp w1
      obtain ⟨u2, rfl, -, -, hw2⟩ := wfO_some_iff.mp w2
      obtain ⟨u3, rfl, -, -, hw3⟩ := wfO_some_iff.mp w3
      obtain ⟨u4, rfl, -, -, hw4⟩ := wfO_some_iff.mp w4
      simp [hlen, hfull, ihtl u1 rfl hw1, ihtr u2 rfl hw2, ihbl u3 rfl hw3,
        ihbr u4 rfl hw4]

theorem rne_int (n : ℤ) : rne (n : ℚ) = n := by
  rw [rne]
  simp

theorem rne_low {q : ℚ} {n : ℤ} (h1 : (n : ℚ) ≤ q) (h2 : q < (n : ℚ) + 1 / 2) :
    rne q = n := by
  have hf : ⌊q⌋ = n := Int.floor_eq_iff.mpr ⟨h1, by linarith⟩
  rw [rne, hf, if_pos (by push_cast; linarith)]

theorem rne_high {q : ℚ} {n : ℤ} (h1 : (n : ℚ) + 1 / 2 < q) (h2 : q < (n : ℚ) + 1) :
    rne q = n + 1 := by
  have hf : ⌊q⌋ = n := Int.floor_eq_iff.mpr ⟨by linarith, by linarith⟩
  rw [rne, hf, if_neg (by push_cast; linarith), if_pos (by push_cast; linarith)]

theorem rne_tie {q : ℚ} {n : ℤ} (h : q = (n : ℚ) + 1 / 2) :
    rne q = if n % 2 = 0 then n else n + 1 := by
  have hf : ⌊q⌋ = n := Int.floor_eq_iff.mpr ⟨by rw [h]; linarith, by rw [h]; push_cast; linarith⟩
  rw [rne, hf, if_neg (by rw [h]; push_cast; linarith), if_neg (by rw [h]; push_cast; linarith)]

/-- Uniqueness of the binary exponent: `Int.log 2` recovers `e` from the
binade bounds. -/
theorem log2_unique {R : Type} [LinearOrderedField R] [FloorSemiring R] {x : R} {e : ℤ}
    (h0 : 0 < x) (h1 : (2 : R) ^ e ≤ x) (h2 : x < (2 : R) ^ (e + 1)) :
    Int.log 2 x = e := by
  have hb : ((2 : ℕ) : R) = (2 : R) := by norm_num
  have hle : e ≤ Int.log 2 x := by
    have h3 : Int.log 2 (((2 : ℕ) : R) ^ e) = e := Int.log_zpow (by norm_num) e
    have h4 : Int.log 2 (((2 : ℕ) : R) ^ e) ≤ Int.log 2 x := by
      apply Int.log_mono_right
      · rw [hb]
        exact zpow_pos (by norm_num) e
      · rw [hb]
        exact h1
    omega
  have hgt : Int.log 2 x ≤ e := by
    by_contra hcon
    push_neg at hcon
    have h4 : (2 : R) ^ (e + 1) ≤ (2 : R) ^ (Int.log 2 x) :=
      zpow_le_zpow_right₀ (by norm_num) (by omega)
    have h5 : ((2 : ℕ) : R) ^ (Int.log 2 x) ≤ x := Int.zpow_log_le_self (by norm_num) h0
    rw [hb] at h5
    linarith
  omega

theorem fl_zero : fl (0 : ℚ) = 0 := by rw [fl, if_pos rfl]

/-- Evaluation rule for `fl` on a positive rational with known binade. -/
theorem fl_pos_eval {x : ℚ} {e : ℤ} (h0 : 0 < x) (h1 : (2 : ℚ) ^ e ≤ x)
    (h2 : x < (2 : ℚ) ^ (e + 1)) :
    fl x = (rne (x * 2 ^ (23 - e)) : ℚ) * 2 ^ (e - 23) := by
  rw [fl, if_neg (by exact ne_of_gt h0), if_pos h0, log2_unique h0 h1 h2]

theorem fl_neg_eq (x : ℚ) : fl (-x) = -fl x := by
  rcases lt_trichotomy x 0 with hx | hx | hx
  · have h1 : ¬(-x = 0) := by intro h; rw [neg_eq_zero] at h; exact absurd h (ne_of_lt hx)
    have h2 : (0 : ℚ) < -x := by linarith
    have h3 : ¬(x = 0) := ne_of_lt hx
    have h4 : ¬((0 : ℚ) < x) := by linarith
    rw [fl, if_neg h1, if_pos h2, fl, if_neg h3, if_neg h4]
    simp only [neg_neg]
  · subst hx
    rw [neg_zero, fl_zero]
    simp [fl_zero]
  · have h1 : ¬(-x = 0) := by intro h; rw [neg_eq_zero] at h; exact absurd h (ne_of_gt hx)
    have h2 : ¬((0 : ℚ) < -x) := by linarith
    have h3 : ¬(x = 0) := ne_of_gt hx
    rw [fl, if_neg h1, if_neg h2, fl, if_neg h3, if_pos hx]
    simp only [neg_neg]

/-- A positive value whose scaled significand is an integer is exactly
representable. -/
theorem fl_repr {x : ℚ} {e m : ℤ} (h0 : 0 < x) (h1 : (2 : ℚ) ^ e ≤ x)
    (h2 : x < (2 : ℚ) ^ (e + 1)) (hm : x * 2 ^ (23 - e) = (m : ℚ)) :
    fl x = x := by
  rw [fl_pos_eval h0 h1 h2, hm, rne_int, ← hm, mul_assoc,
    ← zpow_add₀ (by norm_num : (2 : ℚ) ≠ 0)]
  norm_num

open Classical in
theorem rneR_high {q : ℝ} {n : ℤ} (h1 : (n : ℝ) + 1 / 2 < q) (h2 : q < (n : ℝ) + 1) :
    rneR q = n + 1 := by
  have hf : ⌊q⌋ = n := Int.floor_eq_iff.mpr ⟨by linarith, by linarith⟩
  rw [rneR, hf, if_neg (by push_cast; linarith), if_pos (by push_cast; linarith)]

open Classical in
/-- Evaluation rule for `flR` on a positive real with known binade. -/
theorem flR_pos_eval {x : ℝ} {e : ℤ} (h0 : 0 < x) (h1 : (2 : ℝ) ^ e ≤ x)
    (h2 : x < (2 : ℝ) ^ (e + 1)) :
    flR x = (rneR (x * 2 ^ (23 - e)) : ℝ) * 2 ^ (e - 23) := by
  rw [flR, if_neg (by exact ne_of_gt h0), if_pos h0, log2_unique h0 h1 h2]

/-- Concrete evaluation of `fl` when the scaled significand rounds down. -/
theorem fl_eval_low {x : ℚ} {e n : ℤ} (h0 : 0 < x) (h1 : (2 : ℚ) ^ e ≤ x)
    (h2 : x < (2 : ℚ) ^ (e + 1)) (h3 : (n : ℚ) ≤ x * 2 ^ (23 - e))
    (h4 : x * 2 ^ (23 - e) < (n : ℚ) + 1 / 2) :
    fl x = (n : ℚ) * 2 ^ (e - 23) := by
  rw [fl_pos_eval h0 h1 h2, rne_low h3 h4]

/-- Concrete evaluation of `fl` when the scaled significand rounds up. -/
theorem fl_eval_high {x : ℚ} {e n : ℤ} (h0 : 0 < x) (h1 : (2 : ℚ) ^ e ≤ x)
    (h2 : x < (2 : ℚ) ^ (e + 1)) (h3 : (n : ℚ) + 1 / 2 < x * 2 ^ (23 - e))
    (h4 : x * 2 ^ (23 - e) < (n : ℚ) + 1) :
    fl x = ((n + 1 : ℤ) : ℚ) * 2 ^ (e - 23) := by
  rw [fl_pos_eval h0 h1 h2, rne_high h3 h4]

/-- Concrete evaluation of `fl` at a tie with even lower significand. -/
theorem fl_eval_tie_even {x : ℚ} {e n : ℤ} (h0 : 0 < x) (h1 : (2 : ℚ) ^ e ≤ x)
    (h2 : x < (2 : ℚ) ^ (e + 1)) (h3 : x * 2 ^ (23 - e) = (n : ℚ) + 1 / 2)
    (h5 : n % 2 = 0) :
    fl x = (n : ℚ) * 2 ^ (e - 23) := by
  rw [fl_pos_eval h0 h1 h2, rne_tie h3, if_pos h5]

/-- Concrete evaluation of `fl` at a tie with odd lower significand. -/
theorem fl_eval_tie_odd {x : ℚ} {e n : ℤ} (h0 : 0 < x) (h1 : (2 : ℚ) ^ e ≤ x)
    (h2 : x < (2 : ℚ) ^ (e + 1)) (h3 : x * 2 ^ (23 - e) = (n : ℚ) + 1 / 2)
    (h5 : ¬(n % 2 = 0)) :
    fl x = ((n + 1 : ℤ) : ℚ) * 2 ^ (e - 23) := by
  rw [fl_pos_eval h0 h1 h2, rne_tie h3, if_neg h5]

theorem insert32_zero (t : Quadtree T) (p : Point T) : insert32 0 t p = none := by
  rw [insert32]

theorem insert32_succ (fuel : Nat) (t : Quadtree T) (p : Point T) :
    insert32 (fuel + 1) t p =
      if ! t.boundary.contains_point32 p then some (t, false)
      else if t.points.length < t.capacity then some (t.push_point p, true)
      else insert_kids32 fuel (if t.divided then t else t.subdivide32) p := by
  rw [insert32]

theorem contains_point32_iff {r : Qrect} {p : Point T} :
    r.contains_point32 p = true ↔
      fsub r.x r.w ≤ p.x ∧ p.x ≤ fadd r.x r.w ∧
      fsub r.y r.h ≤ p.y ∧ p.y ≤ fadd r.y r.h := by
  simp [Qrect.contains_point32, and_assoc, ge_iff_le]

theorem intersects_rect32_iff {s r : Qrect} :
    s.intersects_rect32 r = true ↔
      ¬(fadd s.x s.w < fsub r.x r.w ∨ fadd r.x r.w < fsub s.x s.w ∨
        fadd s.y s.h < fsub r.y r.h ∨ fadd r.y r.h < fsub s.y s.h) := by
  simp [Qrect.intersects_rect32, not_or, gt_iff_lt]
  tauto

/-- Sharing a point forces the `f32` intersection test to succeed: the
containment and intersection tests compare against the very same rounded
edge values, so no compound rounding is involved. -/
theorem contains_both_intersects32 {b r : Qrect} {p : Point T}
    (hb : b.contains_point32 p = true) (hr : r.contains_point32 p = true) :
    b.intersects_rect32 r = true := by
  rw [contains_point32_iff] at hb hr
  rw [intersects_rect32_iff]
  push_neg
  obtain ⟨hb1, hb2, hb3, hb4⟩ := hb
  obtain ⟨hr1, hr2, hr3, hr4⟩ := hr
  refine ⟨by linarith, by linarith, by linarith, by linarith⟩

theorem wf32O_some_iff {o : Option (Quadtree T)} :
    wf32O o = true ↔ ∃ u, o = some u ∧ wf32 u = true := by
  cases o with
  | none => simp [wf32O]
  | some u => simp [wf32O]

theorem wf32_mk_iff {b : Qrect} {c : Nat} {ps : List (Point T)} {d : Bool}
    {tl tr bl br : Option (Quadtree T)} :
    wf32 (mk b c ps d tl tr bl br) = true ↔
      (∀ p ∈ all_points (mk b c ps d tl tr bl br), b.contains_point32 p = true) ∧
      (d = true → wf32O tl = true ∧ wf32O tr = true ∧ wf32O bl = true ∧ wf32O br = true) ∧
      (d = false → tl = none ∧ tr = none ∧ bl = none ∧ br = none) := by
  cases d <;>
    simp [wf32, List.all_eq_true, Option.isNone_iff_eq_none, all_points_mk,
      and_assoc, or_imp, forall_and]

theorem wf32_new (b : Qrect) (c : Nat) : wf32 (new b c : Quadtree T) = true := by
  rw [new, wf32_mk_iff]
  simp

/-- An `f32` insertion that accepted passed the root containment test. -/
theorem insert32_true_contains {fuel : Nat} {t t' : Quadtree T} {p : Point T}
    (h : insert32 fuel t p = some (t', true)) :
    t.boundary.contains_point32 p = true := by
  cases fuel with
  | zero => rw [insert32_zero] at h; exact absurd h (by simp)
  | succ fuel =>
    rw [insert32_succ] at h
    by_cases hc : t.boundary.contains_point32 p = true
    · exact hc
    · rw [Bool.not_eq_true] at hc
      rw [hc] at h
      simp at h

/-- An `f32` insertion of a point outside the root boundary rejects at once,
leaving the tree unchanged. -/
theorem insert32_not_contained {fuel : Nat} {t : Quadtree T} {p : Point T}
    (hc : t.boundary.contains_point32 p = false) (hf : 1 ≤ fuel) :
    insert32 fuel t p = some (t, false) := by
  obtain ⟨f, rfl⟩ : ∃ f, fuel = f + 1 := ⟨fuel - 1, by omega⟩
  rw [insert32_succ, hc]
  simp

/-- The `f32` child-attempt phase preserves the `f32` invariant, counts the
acceptance, and introduces no stored point other than `p`. -/
theorem insert_kids32_step {fuel : Nat} {q t' : Quadtree T} {p : Point T} {bb : Bool}
    (IH : ∀ (u u' : Quadtree T) (b2 : Bool), wf32 u = true →
      insert32 fuel u p = some (u', b2) →
      wf32 u' = true ∧
      (all_points u').length = (all_points u).length + (if b2 then 1 else 0) ∧
      ∀ z ∈ all_points u', z ∈ all_points u ∨ z = p)
    (hq : wf32 q = true) (hcb : q.boundary.contains_point32 p = true)
    (h : insert_kids32 fuel q p = some (t', bb)) :
    wf32 t' = true ∧
    (all_points t').length = (all_points q).length + (if bb then 1 else 0) ∧
    ∀ z ∈ all_points t', z ∈ all_points q ∨ z = p := by
  cases q with
  | mk b c ps d tl tr bl br =>
    cases tl with
    | none => simp [insert_kids32] at h
    | some u1 =>
    cases tr with
    | none => simp [insert_kids32] at h
    | some u2 =>
    cases bl with
    | none => simp [insert_kids32] at h
    | some u3 =>
    cases br with
    | none => simp [insert_kids32] at h
    | some u4 =>
    simp only [boundary_mk] at hcb
    rw [wf32_mk_iff] at hq
    obtain ⟨hall, hdiv, hund⟩ := hq
    cases d with
    | false => exact absurd (hund rfl).1 (by simp)
    | true =>
    obtain ⟨w1, w2, w3, w4⟩ := hdiv rfl
    have hw1 : wf32 u1 = true := by simpa [wf32O] using w1
    have hw2 : wf32 u2 = true := by simpa [wf32O] using w2
    have hw3 : wf32 u3 = true := by simpa [wf32O] using w3
    have hw4 : wf32 u4 = true := by simpa [wf32O] using w4
    have final : ∀ v1 v2 v3 v4 : Quadtree T,
        wf32 v1 = true → wf32 v2 = true → wf32 v3 = true → wf32 v4 = true →
        (∀ z ∈ all_points v1, z ∈ all_points u1 ∨ z = p) →
        (∀ z ∈ all_points v2, z ∈ all_points u2 ∨ z = p) →
        (∀ z ∈ all_points v3, z ∈ all_points u3 ∨ z = p) →
        (∀ z ∈ all_points v4, z ∈ all_points u4 ∨ z = p) →
        wf32 (mk b c ps true (some v1) (some v2) (some v3) (some v4)) = true ∧
        ∀ z ∈ all_points (mk b c ps true (some v1) (some v2) (some v3) (some v4)),
          z ∈ all_points (mk b c ps true (some u1) (some u2) (some u3) (some u4)) ∨ z = p := by
      intro v1 v2 v3 v4 g1 g2 g3 g4 m1 m2 m3 m4
      have hmem : ∀ z ∈ all_points (mk b c ps true (some v1) (some v2) (some v3) (some v4)),
          z ∈ all_points (mk b c ps true (some u1) (some u2) (some u3) (some u4)) ∨ z = p := by
        intro z hz
        simp only [all_points_mk, all_pointsO_some, List.mem_append] at hz ⊢
        rcases hz with (((hz | hz) | hz) | hz) | hz
        · exact Or.inl (by tauto)
        · rcases m1 z hz with hm | hm
          · exact Or.inl (by tauto)
          · exact Or.inr hm
        · rcases m2 z hz with hm | hm
          · exact Or.inl (by tauto)
          · exact Or.inr hm
        · rcases m3 z hz with hm | hm
          · exact Or.inl (by tauto)
          · exact Or.inr hm
        · rcases m4 z hz with hm | hm
          · exact Or.inl (by tauto)
          · exact Or.inr hm
      refine ⟨?_, hmem⟩
      rw [wf32_mk_iff]
      refine ⟨?_, fun _ => ⟨by simpa [wf32O] using g1, by simpa [wf32O] using g2,
        by simpa [wf32O] using g3, by simpa [wf32O] using g4⟩, by simp⟩
      intro z hz
      rcases hmem z hz with hm | hm
      · exact hall z hm
      · rw [hm]
        exact hcb
    rw [insert_kids32] at h
    cases h1 : insert32 fuel u1 p with
    | none => rw [h1] at h; simp at h
    | some r1 =>
    rw [h1] at h
    obtain ⟨u1', b1⟩ := r1
    obtain ⟨g1, k1, m1⟩ := IH u1 u1' b1 hw1 h1
    cases b1 with
    | true =>
      obtain ⟨rfl, rfl⟩ : mk b c ps true (some u1') (some u2) (some u3) (some u4) = t' ∧ true = bb := by
        simpa using h
      obtain ⟨hwf, hm⟩ := final u1' u2 u3 u4 g1 hw2 hw3 hw4 m1
        (fun z hz => Or.inl hz) (fun z hz => Or.inl hz) (fun z hz => Or.inl hz)
      refine ⟨hwf, ?_, hm⟩
      simp only [all_points_mk, all_pointsO_some, List.length_append, if_true] at k1 ⊢
      omega
    | false =>
    simp only [Bool.false_eq_true, if_false] at h k1
    cases h2 : insert32 fuel u2 p with
    | none => rw [h2] at h; simp at h
    | some r2 =>
    rw [h2] at h
    obtain ⟨u2', b2⟩ := r2
    obtain ⟨g2, k2, m2⟩ := IH u2 u2' b2 hw2 h2
    cases b2 with
    | true =>
      obtain ⟨rfl, rfl⟩ : mk b c ps true (some u1') (some u2') (some u3) (some u4) = t' ∧ true = bb := by
        simpa using h
      obtain ⟨hwf, hm⟩ := final u1' u2' u3 u4 g1 g2 hw3 hw4 m1 m2
        (fun z hz => Or.inl hz) (fun z hz => Or.inl hz)
      refine ⟨hwf, ?_, hm⟩
      simp only [all_points_mk, all_pointsO_some, List.length_append, if_true] at k1 k2 ⊢
      omega
    | false =>
    simp only [Bool.false_eq_true, if_false] at h k2
    cases h3 : insert32 fuel u3 p with
    | none => rw [h3] at h; simp at h
    | some r3 =>
    rw [h3] at h
    obtain ⟨u3', b3⟩ := r3
    obtain ⟨g3, k3, m3⟩ := IH u3 u3' b3 hw3 h3
    cases b3 with
    | true =>
      obtain ⟨rfl, rfl⟩ : mk b c ps true (some u1') (some u2') (some u3') (some u4) = t' ∧ true = bb := by
        simpa using h
      obtain ⟨hwf, hm⟩ := final u1' u2' u3' u4 g1 g2 g3 hw4 m1 m2 m3
        (fun z hz => Or.inl hz)
      refine ⟨hwf, ?_, hm⟩
      simp only [all_points_mk, all_pointsO_some, List.length_append, if_true] at k1 k2 k3 ⊢
      omega
    | false =>
    simp only [Bool.false_eq_true, if_false] at h k3
    cases h4 : insert32 fuel u4 p with
    | none => rw [h4] at h; simp at h
    | some r4 =>
    rw [h4] at h
    obtain ⟨u4', b4⟩ := r4
    obtain ⟨g4, k4, m4⟩ := IH u4 u4' b4 hw4 h4
    obtain ⟨rfl, rfl⟩ : mk b c ps true (some u1') (some u2') (some u3') (some u4') = t' ∧ b4 = bb := by
      simpa using h
    obtain ⟨hwf, hm⟩ := final u1' u2' u3' u4' g1 g2 g3 g4 m1 m2 m3 m4
    refine ⟨hwf, ?_, hm⟩
    cases b4 with
    | true =>
      simp only [all_points_mk, all_pointsO_some, List.length_append, if_true] at k1 k2 k3 k4 ⊢
      omega
    | false =>
      simp only [all_points_mk, all_pointsO_some, List.length_append,
        Bool.false_eq_true, if_false] at k1 k2 k3 k4 ⊢
      omega

/-- A completed `f32` insertion preserves the `f32` invariant, grows the
stored count by one exactly on acceptance, and adds no point other than the
inserted one. -/
theorem insert32_step : ∀ (fuel : Nat) (t t' : Quadtree T) (p : Point T) (bb : Bool),
    wf32 t = true → insert32 fuel t p = some (t', bb) →
    wf32 t' = true ∧
    (all_points t').length = (all_points t).length + (if bb then 1 else 0) ∧
    ∀ z ∈ all_points t', z ∈ all_points t ∨ z = p := by
  intro fuel
  induction fuel with
  | zero => intro t t' p bb hwf h; rw [insert32_zero] at h; simp at h
  | succ fuel ih =>
    intro t t' p bb hwf h
    rw [insert32_succ] at h
    by_cases hc : t.boundary.contains_point32 p = true
    · simp only [hc, Bool.not_true, Bool.false_eq_true, if_false] at h
      by_cases hl : t.points.length < t.capacity
      · rw [if_pos hl] at h
        obtain ⟨rfl, rfl⟩ : t.push_point p = t' ∧ true = bb := by simpa using h
        cases t with
        | mk b c ps d tl tr bl br =>
          simp only [boundary_mk] at hc
          rw [wf32_mk_iff] at hwf
          obtain ⟨hall, hdiv, hund⟩ := hwf
          refine ⟨?_, ?_, ?_⟩
          · rw [push_point, wf32_mk_iff]
            refine ⟨?_, hdiv, hund⟩
            intro z hz
            simp only [all_points_mk, List.mem_append] at hz
            rcases hz with (((hz | hz) | hz) | hz) | hz
            · rcases hz with hz | hz
              · exact hall z (by simp [all_points_mk]; tauto)
              · simp only [List.mem_singleton] at hz
                rw [hz]
                exact hc
            · exact hall z (by simp [all_points_mk]; tauto)
            · exact hall z (by simp [all_points_mk]; tauto)
            · exact hall z (by simp [all_points_mk]; tauto)
            · exact hall z (by simp [all_points_mk]; tauto)
          · rw [push_point]
            simp only [all_points_mk, List.length_append, List.length_singleton, if_true]
            omega
          · intro z hz
            rw [push_point] at hz
            simp only [all_points_mk, List.mem_append] at hz ⊢
            rcases hz with (((hz | hz) | hz) | hz) | hz
            · rcases hz with hz | hz
              · exact Or.inl (by tauto)
              · simp only [List.mem_singleton] at hz
                exact Or.inr hz
            · exact Or.inl (by tauto)
            · exact Or.inl (by tauto)
            · exact Or.inl (by tauto)
            · exact Or.inl (by tauto)
      · rw [if_neg hl] at h
        have hqwf : wf32 (if t.divided then t else t.subdivide32) = true := by
          by_cases hd : t.divided = true
          · rw [if_pos hd]; exact hwf
          · rw [if_neg hd]
            cases t with
            | mk b c ps d tl tr bl br =>
              simp only [divided_mk] at hd
              have hd' : d = false := by simpa using hd
              subst hd'
              rw [wf32_mk_iff] at hwf
              obtain ⟨hall, -, hund⟩ := hwf
              obtain ⟨rfl, rfl, rfl, rfl⟩ := hund rfl
              rw [subdivide32, wf32_mk_iff]
              refine ⟨?_, fun _ => ⟨by simp [wf32O, wf32_new], by simp [wf32O, wf32_new],
                by simp [wf32O, wf32_new], by simp [wf32O, wf32_new]⟩, by simp⟩
              intro z hz
              apply hall
              simpa [all_points_mk, new] using hz
        have hqb : (if t.divided then t else t.subdivide32).boundary = t.boundary := by
          by_cases hd : t.divided = true
          · rw [if_pos hd]
          · rw [if_neg hd]
            cases t with
            | mk b c ps d tl tr bl br => rw [subdivide32]; rfl
        have hqp : all_points (if t.divided then t else t.subdivide32) = all_points t := by
          by_cases hd : t.divided = true
          · rw [if_pos hd]
          · rw [if_neg hd]
            cases t with
            | mk b c ps d tl tr bl br =>
              simp only [divided_mk] at hd
              have hd' : d = false := by simpa using hd
              subst hd'
              rw [wf32_mk_iff] at hwf
              obtain ⟨-, -, hund⟩ := hwf
              obtain ⟨rfl, rfl, rfl, rfl⟩ := hund rfl
              rw [subdivide32]
              simp [new]
        have hstep := insert_kids32_step (fun u u' b2 => ih u u' p b2) hqwf
          (by rw [hqb]; exact hc) h
        rw [hqp] at hstep
        exact hstep
    · simp only [Bool.not_eq_true] at hc
      simp only [hc, Bool.not_false, if_true] at h
      obtain ⟨rfl, rfl⟩ : t = t' ∧ false = bb := by simpa using h
      exact ⟨hwf, by simp, fun z hz => Or.inl hz⟩

/-- On `f32`-well-formed trees the `f32` rectangle query never panics and
filters the stored points by the `f32` containment test. -/
theorem query_rect32_eq (t : Quadtree T) (hwf : wf32 t = true) :
    ∀ range : Qrect,
      query_rect32 t range =
        some ((all_points t).filter fun p => range.contains_point32 p) := by
  induction t using strong_ind with
  | step b c ps d tl tr bl br ihtl ihtr ihbl ihbr =>
    intro range
    rw [wf32_mk_iff] at hwf
    obtain ⟨hall, hdiv, hund⟩ := hwf
    by_cases hint : b.intersects_rect32 range = true
    · rw [query_rect32]
      simp only [hint, Bool.not_true, Bool.false_eq_true, if_false]
      cases d with
      | false =>
        obtain ⟨rfl, rfl, rfl, rfl⟩ := hund rfl
        simp
      | true =>
        obtain ⟨w1, w2, w3, w4⟩ := hdiv rfl
        obtain ⟨u1, rfl, hw1⟩ := wf32O_some_iff.mp w1
        obtain ⟨u2, rfl, hw2⟩ := wf32O_some_iff.mp w2
        obtain ⟨u3, rfl, hw3⟩ := wf32O_some_iff.mp w3
        obtain ⟨u4, rfl, hw4⟩ := wf32O_some_iff.mp w4
        rw [if_pos rfl]
        simp only [query_rectO32, ihtl u1 rfl hw1 range, ihtr u2 rfl hw2 range,
          ihbl u3 rfl hw3 range, ihbr u4 rfl hw4 range]
        simp [List.filter_append]
    · simp only [Bool.not_eq_true] at hint
      have hempty : (all_points (mk b c ps d tl tr bl br)).filter
          (fun p => range.contains_point32 p) = [] := by
        rw [List.filter_eq_nil_iff]
        intro z hz hcz
        have := contains_both_intersects32 (hall z hz) hcz
        rw [this] at hint
        exact Bool.true_eq_false.mp hint
      rw [hempty, query_rect32]
      simp [hint]

/-- On an `f32`-well-formed tree `collect` returns precisely the stored
points. -/
theorem collect32_eq (t : Quadtree T) (hwf : wf32 t = true) :
    collect32 t = some (all_points t) := by
  rw [collect32, query_rect32_eq t hwf]
  congr 1
  refine List.filter_eq_self.mpr ?_
  intro z hz
  cases t with
  | mk b c ps d tl tr bl br =>
    rw [wf32_mk_iff] at hwf
    exact hwf.1 z hz

/-- Over a whole list of `f32` insertions the invariant is maintained and
the stored count grows by the number of accepted points. -/
theorem insert_all32_wf_count : ∀ (ps : List (Point T)) (fuel : Nat)
    (t t' : Quadtree T) (n : Nat),
    wf32 t = true → insert_all32 fuel t ps = some (t', n) →
    wf32 t' = true ∧ (all_points t').length = (all_points t).length + n := by
  intro ps
  induction ps with
  | nil =>
    intro fuel t t' n hwf h
    rw [insert_all32] at h
    obtain ⟨rfl, rfl⟩ : t = t' ∧ 0 = n := by simpa using h
    exact ⟨hwf, by simp⟩
  | cons p ps ih =>
    intro fuel t t' n hwf h
    rw [insert_all32] at h
    cases h1 : insert32 fuel t p with
    | none => rw [h1] at h; simp at h
    | some r1 =>
    rw [h1] at h
    obtain ⟨t1, b1⟩ := r1
    dsimp only at h
    cases h2 : insert_all32 fuel t1 ps with
    | none => rw [h2] at h; simp at h
    | some r2 =>
    rw [h2] at h
    obtain ⟨t2, n2⟩ := r2
    obtain ⟨rfl, rfl⟩ : t2 = t' ∧ (if b1 then 1 else 0) + n2 = n := by simpa using h
    obtain ⟨hwf1, hcnt1, -⟩ := insert32_step fuel t t1 p b1 hwf h1
    obtain ⟨hwf2, hcnt2⟩ := ih fuel t1 t2 n2 hwf1 h2
    exact ⟨hwf2, by omega⟩

/-- C1: on every tree built from a fresh root by insertions (and resets),
`query_rect` returns exactly the stored points the range contains — as the
structurally ordered result (own matches first in insertion order, then the
TL, TR, BL, BR children recursively), equal to the filtered flat point
list — and a node whose boundary does not intersect the range answers the
empty sequence. -/
theorem claim_c1 (t : Quadtree T) (hr : Reachable t) :
    (∀ range : Qrect, query_rect t range = some (query_rect_spec t range)) ∧
    (∀ range : Qrect,
      query_rect t range =
        some ((all_points t).filter fun p => range.contains_point p)) ∧
    (∀ range : Qrect, t.boundary.intersects_rect range = false →
      query_rect t range = some []) := by
  have hwf := reachable_wf hr
  refine ⟨query_rect_eq_spec t hwf, ?_, ?_⟩
  · intro range
    rw [query_rect_eq_spec t hwf, query_rect_spec_eq_filter]
  · intro range hrange
    cases t with
    | mk b c ps d tl tr bl br =>
      simp only [boundary_mk] at hrange
      rw [query_rect, hrange]
      simp

/-- Witness for C1 at a concrete reachable tree and query range. -/
theorem claim_c1_witness :
    Reachable (new (Qrect.new 50 50 50 50) 4 : Quadtree Nat) ∧
    query_rect (new (Qrect.new 50 50 50 50) 4 : Quadtree Nat) (Qrect.new 25 25 1 1) =
      some (query_rect_spec (new (Qrect.new 50 50 50 50) 4) (Qrect.new 25 25 1 1)) :=
  ⟨Reachable.new _ _,
    (claim_c1 _ (Reachable.new (Qrect.new 50 50 50 50) 4)).1 (Qrect.new 25 25 1 1)⟩

/-- C2 (amended): over the exact-arithmetic model, on every tree built from
a fresh root (capacity at least 1), insertion — run with fuel beyond the
tree height — completes and returns `true` exactly when the root boundary
contains the point, and the fall-through `return false` after the four
child attempts is never taken, because over exact arithmetic the children
exactly tile the parent. Under the bit-exact `f32` model only the two
sound directions survive: an accepted point was contained, and a
non-contained point is rejected with the tree unchanged — the converse
fails at subdivision tiling gaps (see the counterexample). -/
theorem claim_c2 (t : Quadtree T) (hr : Reachable t) (hcap : 1 ≤ t.capacity)
    (p : Point T) (fuel : Nat) (hf : height t + 1 ≤ fuel) :
    (∃ t', insert fuel t p = some (t', t.boundary.contains_point p)) ∧
    (∀ (u u' : Quadtree T) (fuel2 : Nat),
      insert32 fuel2 u p = some (u', true) →
      u.boundary.contains_point32 p = true) ∧
    (∀ (u : Quadtree T) (fuel2 : Nat), 1 ≤ fuel2 →
      u.boundary.contains_point32 p = false →
      insert32 fuel2 u p = some (u, false)) :=
  ⟨insert_success fuel t p (reachable_wf hr) hcap hf,
    fun _ _ _ h => insert32_true_contains h,
    fun _ _ hf2 hc => insert32_not_contained hc hf2⟩

/-- Witness for C2 at a concrete fresh tree, both for a contained and for
an outside point. -/
theorem claim_c2_witness :
    Reachable (new (Qrect.new 50 50 50 50) 4 : Quadtree Nat) ∧
    1 ≤ (new (Qrect.new 50 50 50 50) 4 : Quadtree Nat).capacity ∧
    height (new (Qrect.new 50 50 50 50) 4 : Quadtree Nat) + 1 ≤ 2 ∧
    (∃ t', insert 2 (new (Qrect.new 50 50 50 50) 4 : Quadtree Nat) (Point.mk 25 25 0) =
      some (t', (new (Qrect.new 50 50 50 50) 4 : Quadtree Nat).boundary.contains_point (Point.mk 25 25 0))) ∧
    (∃ t', insert 2 (new (Qrect.new 50 50 50 50) 4 : Quadtree Nat) (Point.mk 125 25 0) =
      some (t', (new (Qrect.new 50 50 50 50) 4 : Quadtree Nat).boundary.contains_point (Point.mk 125 25 0))) := by
  have h2 : height (new (Qrect.new 50 50 50 50) 4 : Quadtree Nat) + 1 ≤ 2 := by
    rw [new, height]
    simp [heightO]
  exact ⟨Reachable.new _ _, by simp [new, capacity], h2,
    (claim_c2 _ (Reachable.new _ _) (by simp [new, capacity]) _ 2 h2).1,
    (claim_c2 _ (Reachable.new _ _) (by simp [new, capacity]) _ 2 h2).1⟩

/-- C3: starting from a fresh root, after a run of insertions of which
exactly `n` returned `true`, `collect` returns a sequence of exactly `n`
points, however many subdivisions happened. The count conservation is
arithmetic-independent, so it is stated and proved both for the exact
model and for the bit-exact `f32` model. -/
theorem claim_c3 (b : Qrect) (c : Nat) (ps : List (Point T)) (fuel : Nat) :
    (∀ (t : Quadtree T) (n : Nat),
      insert_all fuel (new b c) ps = some (t, n) →
      ∃ l, collect t = some l ∧ l.length = n) ∧
    (∀ (t : Quadtree T) (n : Nat),
      insert_all32 fuel (new b c) ps = some (t, n) →
      ∃ l, collect32 t = some l ∧ l.length = n) := by
  constructor
  · intro t n h
    obtain ⟨hwf, hcnt⟩ := insert_all_wf_count ps fuel (new b c) t n (wf_new b c) h
    refine ⟨all_points t, collect_eq_all_points t hwf, ?_⟩
    have hz : all_points (new b c : Quadtree T) = [] := by simp [new]
    rw [hz] at hcnt
    simpa using hcnt
  · intro t n h
    obtain ⟨hwf, hcnt⟩ := insert_all32_wf_count ps fuel (new b c) t n (wf32_new b c) h
    refine ⟨all_points t, collect32_eq t hwf, ?_⟩
    have hz : all_points (new b c : Quadtree T) = [] := by simp [new]
    rw [hz] at hcnt
    simpa using hcnt

/-- Witness for C3: two successful insertions into a capacity-1 tree (one
subdivision occurs) and `collect` then returns two points, in both
arithmetic models. -/
theorem claim_c3_witness :
    insert_all 2 (new (Qrect.new 50 50 50 50) 1) [Point.mk 25 25 (0 : Nat), Point.mk 25 25 1] =
      some (mk (Qrect.new 50 50 50 50) 1 [Point.mk 25 25 0] true
        (some (mk (Qrect.new 25 25 25 25) 1 [Point.mk 25 25 1] false none none none none))
        (some (mk (Qrect.new 75 25 25 25) 1 [] false none none none none))
        (some (mk (Qrect.new 25 75 25 25) 1 [] false none none none none))
        (some (mk (Qrect.new 75 75 25 25) 1 [] false none none none none)), 2) ∧
    (∃ l, collect (mk (Qrect.new 50 50 50 50) 1 [Point.mk 25 25 (0 : Nat)] true
        (some (mk (Qrect.new 25 25 25 25) 1 [Point.mk 25 25 1] false none none none none))
        (some (mk (Qrect.new 75 25 25 25) 1 [] false none none none none))
        (some (mk (Qrect.new 25 75 25 25) 1 [] false none none none none))
        (some (mk (Qrect.new 75 75 25 25) 1 [] false none none none none)) : Quadtree Nat) = some l ∧
      l.length = 2) ∧
    insert_all32 2 (new (Qrect.new 50 50 50 50) 1) [Point.mk 25 25 (0 : Nat), Point.mk 25 25 1] =
      some (mk (Qrect.new 50 50 50 50) 1 [Point.mk 25 25 0] true
        (some (mk (Qrect.new 25 25 25 25) 1 [Point.mk 25 25 1] false none none none none))
        (some (mk (Qrect.new 75 25 25 25) 1 [] false none none none none))
        (some (mk (Qrect.new 25 75 25 25) 1 [] false none none none none))
        (some (mk (Qrect.new 75 75 25 25) 1 [] false none none none none)), 2) ∧
    (∃ l, collect32 (mk (Qrect.new 50 50 50 50) 1 [Point.mk 25 25 (0 : Nat)] true
        (some (mk (Qrect.new 25 25 25 25) 1 [Point.mk 25 25 1] false none none none none))
        (some (mk (Qrect.new 75 25 25 25) 1 [] false none none none none))
        (some (mk (Qrect.new 25 75 25 25) 1 [] false none none none none))
        (some (mk (Qrect.new 75 75 25 25) 1 [] false none none none none)) : Quadtree Nat) = some l ∧
      l.length = 2) := by
  have h : insert_all 2 (new (Qrect.new 50 50 50 50) 1) [Point.mk 25 25 (0 : Nat), Point.mk 25 25 1] =
      some (mk (Qrect.new 50 50 50 50) 1 [Point.mk 25 25 0] true
        (some (mk (Qrect.new 25 25 25 25) 1 [Point.mk 25 25 1] false none none none none))
        (some (mk (Qrect.new 75 25 25 25) 1 [] false none none none none))
        (some (mk (Qrect.new 25 75 25 25) 1 [] false none none none none))
        (some (mk (Qrect.new 75 75 25 25) 1 [] false none none none none)), 2) := by
    norm_num [insert_all, insert_succ, insert_kids, new, subdivide, push_point,
      tl_rect, tr_rect, bl_rect, br_rect, Qrect.new, Qrect.contains_point,
      boundary, points, capacity, divided]
  have e0 : fl (0 : ℚ) = 0 := fl_zero
  have e25 : fl (25 : ℚ) = 25 :=
    fl_repr (e := 4) (m := 25 * 2 ^ 19) (by norm_num) (by norm_num) (by norm_num) (by norm_num)
  have e50 : fl (50 : ℚ) = 50 :=
    fl_repr (e := 5) (m := 50 * 2 ^ 18) (by norm_num) (by norm_num) (by norm_num) (by norm_num)
  have e75 : fl (75 : ℚ) = 75 :=
    fl_repr (e := 6) (m := 75 * 2 ^ 17) (by norm_num) (by norm_num) (by norm_num) (by norm_num)
  have e100 : fl (100 : ℚ) = 100 :=
    fl_repr (e := 6) (m := 100 * 2 ^ 17) (by norm_num) (by norm_num) (by norm_num) (by norm_num)
  have h32 : insert_all32 2 (new (Qrect.new 50 50 50 50) 1) [Point.mk 25 25 (0 : Nat), Point.mk 25 25 1] =
      some (mk (Qrect.new 50 50 50 50) 1 [Point.mk 25 25 0] true
        (some (mk (Qrect.new 25 25 25 25) 1 [Point.mk 25 25 1] false none none none none))
        (some (mk (Qrect.new 75 25 25 25) 1 [] false none none none none))
        (some (mk (Qrect.new 25 75 25 25) 1 [] false none none none none))
        (some (mk (Qrect.new 75 75 25 25) 1 [] false none none none none)), 2) := by
    norm_num [insert_all32, insert32_succ, insert_kids32, new, subdivide32, push_point,
      tl_rect32, tr_rect32, bl_rect32, br_rect32, Qrect.new, Qrect.contains_point32,
      fsub, fadd, fdiv, boundary, points, capacity, divided, e0, e25, e50, e75, e100]
  exact ⟨h, (claim_c3 (Qrect.new 50 50 50 50) 1 _ 2).1 _ 2 h,
    h32, (claim_c3 (Qrect.new 50 50 50 50) 1 _ 2).2 _ 2 h32⟩

/-- C8: reset restores a freshly constructed node with the same boundary
and capacity, and neither insertion nor subdivision ever changes a node's
boundary or capacity. -/
theorem claim_c8 :
    (∀ t : Quadtree T, t.empty = new t.boundary t.capacity) ∧
    (∀ (fuel : Nat) (t t' : Quadtree T) (p : Point T) (bb : Bool),
      insert fuel t p = some (t', bb) →
      t'.boundary = t.boundary ∧ t'.capacity = t.capacity) ∧
    (∀ t : Quadtree T,
      (subdivide t).boundary = t.boundary ∧ (subdivide t).capacity = t.capacity) :=
  ⟨empty_eq_new,
    fun _ _ _ _ _ h => ⟨(insert_frame h).1, (insert_frame h).2.1⟩,
    fun t => ⟨(subdivide_fields t).1, (subdivide_fields t).2.1⟩⟩

/-- Witness for C8 at a concrete insertion. -/
theorem claim_c8_witness :
    insert 1 (new (Qrect.new 50 50 50 50) 4 : Quadtree Nat) (Point.mk 25 25 0) =
      some (mk (Qrect.new 50 50 50 50) 4 [Point.mk 25 25 0] false none none none none, true) ∧
    (mk (Qrect.new 50 50 50 50) 4 [Point.mk 25 25 (0 : Nat)] false none none none none).boundary =
      (new (Qrect.new 50 50 50 50) 4 : Quadtree Nat).boundary ∧
    (empty (mk (Qrect.new 50 50 50 50) 4 [Point.mk 25 25 (0 : Nat)] false none none none none)) =
      new (Qrect.new 50 50 50 50) 4 := by
  have h : insert 1 (new (Qrect.new 50 50 50 50) 4 : Quadtree Nat) (Point.mk 25 25 0) =
      some (mk (Qrect.new 50 50 50 50) 4 [Point.mk 25 25 0] false none none none none, true) := by
    norm_num [insert_succ, new, push_point, Qrect.new, Qrect.contains_point,
      boundary, points, capacity]
  exact ⟨h, ((claim_c8 (T := Nat)).2.1 1 _ _ _ _ h).1,
    (claim_c8 (T := Nat)).1 (mk (Qrect.new 50 50 50 50) 4 [Point.mk 25 25 0] false none none none none)⟩

/-- C9: every tree reachable from a fresh root by insertions and resets
satisfies, at every node: the point list never exceeds the capacity, the
`divided` flag holds exactly when all four child slots are present, and a
divided node holds exactly `capacity` points. -/
theorem claim_c9 (t : Quadtree T) (hr : Reachable t) : inv_c9 t = true :=
  wf_inv_c9 t (reachable_wf hr)

/-- Witness for C9 at a concrete reachable tree. -/
theorem claim_c9_witness :
    Reachable (new (Qrect.new 50 50 50 50) 4 : Quadtree Nat) ∧
    inv_c9 (new (Qrect.new 50 50 50 50) 4 : Quadtree Nat) = true :=
  ⟨Reachable.new _ _, claim_c9 _ (Reachable.new (Qrect.new 50 50 50 50) 4)⟩

/-- Inserting a run of contained points into an undivided childless node
with enough spare capacity just appends them all, in order, with no
subdivision. -/
theorem insert_all_leaf (ps : List (Point T)) :
    ∀ (b : Qrect) (c : Nat) (qs : List (Point T)) (fuel : Nat),
    (∀ p ∈ ps, b.contains_point p = true) → qs.length + ps.length ≤ c →
    1 ≤ fuel →
    insert_all fuel (mk b c qs false none none none none) ps =
      some (mk b c (qs ++ ps) false none none none none, ps.length) := by
  induction ps with
  | nil =>
    intro b c qs fuel hin hlen hf
    rw [insert_all]
    simp
  | cons p ps ih =>
    intro b c qs fuel hin hlen hf
    obtain ⟨f, rfl⟩ : ∃ f, fuel = f + 1 := ⟨fuel - 1, by omega⟩
    rw [insert_all]
    have h1 : insert (f + 1) (mk b c qs false none none none none) p =
        some (mk b c (qs ++ [p]) false none none none none, true) := by
      rw [insert_succ]
      rw [show (mk b c qs false none none none none : Quadtree T).boundary = b from rfl,
        show (mk b c qs false none none none none : Quadtree T).points = qs from rfl,
        show (mk b c qs false none none none none : Quadtree T).capacity = c from rfl]
      rw [hin p (List.mem_cons_self p ps)]
      simp only [Bool.not_true, Bool.false_eq_true, if_false]
      rw [if_pos (by simp at hlen ⊢; omega)]
      rfl
    rw [h1]
    dsimp only
    rw [ih b c (qs ++ [p]) (f + 1)
      (fun q hq => hin q (List.mem_cons_of_mem p hq))
      (by simp at hlen ⊢; omega) (by omega)]
    simp [Nat.add_comm]

/-- The `(capacity + 1)`-st contained insertion into an exactly full,
undivided, childless node subdivides it once: the node comes out divided
with four children, each still undivided, and the point accepted. -/
theorem insert_full_leaf {b : Qrect} {c : Nat} {qs : List (Point T)}
    {p : Point T} {fuel : Nat} (hcap : 1 ≤ c) (hq : qs.length = c)
    (hp : b.contains_point p = true) (hf : 2 ≤ fuel) :
    ∃ u1 u2 u3 u4 : Quadtree T,
      insert fuel (mk b c qs false none none none none) p =
        some (mk b c qs true (some u1) (some u2) (some u3) (some u4), true) ∧
      u1.divided = false ∧ u2.divided = false ∧
      u3.divided = false ∧ u4.divided = false := by
  obtain ⟨f, rfl⟩ : ∃ f, fuel = f + 2 := ⟨fuel - 2, by omega⟩
  rw [insert_succ]
  rw [show (mk b c qs false none none none none : Quadtree T).boundary = b from rfl,
    show (mk b c qs false none none none none : Quadtree T).points = qs from rfl,
    show (mk b c qs false none none none none : Quadtree T).capacity = c from rfl]
  rw [hp]
  simp only [Bool.not_true, Bool.false_eq_true, if_false]
  rw [if_neg (by omega)]
  rw [if_neg (by simp)]
  rw [show (mk b c qs false none none none none : Quadtree T).subdivide =
    mk b c qs true (some (new (tl_rect b) c)) (some (new (tr_rect b) c))
      (some (new (bl_rect b) c)) (some (new (br_rect b) c)) from rfl]
  rw [insert_kids]
  by_cases c1 : (tl_rect b).contains_point p = true
  · rw [insert_new_eq hcap, if_pos c1]
    refine ⟨mk (tl_rect b) c [p] false none none none none,
      new (tr_rect b) c, new (bl_rect b) c, new (br_rect b) c, ?_, rfl, rfl, rfl, rfl⟩
    simp
  · rw [insert_new_eq hcap, if_neg c1]
    simp only [Bool.false_eq_true, if_false]
    by_cases c2 : (tr_rect b).contains_point p = true
    · rw [insert_new_eq hcap, if_pos c2]
      refine ⟨new (tl_rect b) c, mk (tr_rect b) c [p] false none none none none,
        new (bl_rect b) c, new (br_rect b) c, ?_, rfl, rfl, rfl, rfl⟩
      simp
    · rw [insert_new_eq hcap, if_neg c2]
      simp only [Bool.false_eq_true, if_false]
      by_cases c3 : (bl_rect b).contains_point p = true
      · rw [insert_new_eq hcap, if_pos c3]
        refine ⟨new (tl_rect b) c, new (tr_rect b) c,
          mk (bl_rect b) c [p] false none none none none, new (br_rect b) c,
          ?_, rfl, rfl, rfl, rfl⟩
        simp
      · rw [insert_new_eq hcap, if_neg c3]
        simp only [Bool.false_eq_true, if_false]
        by_cases c4 : (br_rect b).contains_point p = true
        · rw [insert_new_eq hcap, if_pos c4]
          refine ⟨new (tl_rect b) c, new (tr_rect b) c, new (bl_rect b) c,
            mk (br_rect b) c [p] false none none none none, ?_, rfl, rfl, rfl, rfl⟩
          simp
        · rcases quadrant_cover hp with hx | hx | hx | hx
          · exact absurd hx c1
          · exact absurd hx c2
          · exact absurd hx c3
          · exact absurd hx c4

/-- Inserting, under `f32` arithmetic, into a fresh node with positive
capacity returns immediately. -/
theorem insert32_new_eq {fuel : Nat} {r : Qrect} {c : Nat} {p : Point T}
    (hc : 1 ≤ c) :
    insert32 (fuel + 1) (new r c : Quadtree T) p =
      if r.contains_point32 p = true
        then some (mk r c [p] false none none none none, true)
        else some (new r c, false) := by
  rw [insert32_succ]
  rw [show (new r c : Quadtree T).boundary = r from rfl,
    show (new r c : Quadtree T).points = [] from rfl,
    show (new r c : Quadtree T).capacity = c from rfl]
  by_cases h : r.contains_point32 p = true
  · rw [h, if_pos rfl]
    simp only [Bool.not_true, Bool.false_eq_true, if_false, List.length_nil]
    rw [if_pos (by omega)]
    rfl
  · rw [Bool.not_eq_true] at h
    rw [h]
    simp

/-- Inserting, under `f32` arithmetic, a run of contained points into an
undivided childless node with spare capacity appends them all, with no
subdivision. -/
theorem insert_all32_leaf (ps : List (Point T)) :
    ∀ (b : Qrect) (c : Nat) (qs : List (Point T)) (fuel : Nat),
    (∀ p ∈ ps, b.contains_point32 p = true) → qs.length + ps.length ≤ c →
    1 ≤ fuel →
    insert_all32 fuel (mk b c qs false none none none none) ps =
      some (mk b c (qs ++ ps) false none none none none, ps.length) := by
  induction ps with
  | nil =>
    intro b c qs fuel hin hlen hf
    rw [insert_all32]
    simp
  | cons p ps ih =>
    intro b c qs fuel hin hlen hf
    obtain ⟨f, rfl⟩ : ∃ f, fuel = f + 1 := ⟨fuel - 1, by omega⟩
    rw [insert_all32]
    have h1 : insert32 (f + 1) (mk b c qs false none none none none) p =
        some (mk b c (qs ++ [p]) false none none none none, true) := by
      rw [insert32_succ]
      rw [show (mk b c qs false none none none none : Quadtree T).boundary = b from rfl,
        show (mk b c qs false none none none none : Quadtree T).points = qs from rfl,
        show (mk b c qs false none none none none : Quadtree T).capacity = c from rfl]
      rw [hin p (List.mem_cons_self p ps)]
      simp only [Bool.not_true, Bool.false_eq_true, if_false]
      rw [if_pos (by simp at hlen ⊢; omega)]
      rfl
    rw [h1]
    dsimp only
    rw [ih b c (qs ++ [p]) (f + 1)
      (fun q hq => hin q (List.mem_cons_of_mem p hq))
      (by simp at hlen ⊢; omega) (by omega)]
    simp [Nat.add_comm]

/-- The overflow insertion under `f32` arithmetic: a full, undivided,
childless node subdivides exactly once, ending divided with four fresh
children that all stay undivided — whether or not any child accepts the
point (under rounding the children may all reject it). -/
theorem insert32_full_leaf {b : Qrect} {c : Nat} {qs : List (Point T)}
    {p : Point T} {fuel : Nat} (hcap : 1 ≤ c) (hq : qs.length = c)
    (hp : b.contains_point32 p = true) (hf : 2 ≤ fuel) :
    ∃ (u1 u2 u3 u4 : Quadtree T) (bb : Bool),
      insert32 fuel (mk b c qs false none none none none) p =
        some (mk b c qs true (some u1) (some u2) (some u3) (some u4), bb) ∧
      u1.divided = false ∧ u2.divided = false ∧
      u3.divided = false ∧ u4.divided = false := by
  obtain ⟨f, rfl⟩ : ∃ f, fuel = f + 2 := ⟨fuel - 2, by omega⟩
  rw [insert32_succ]
  rw [show (mk b c qs false none none none none : Quadtree T).boundary = b from rfl,
    show (mk b c qs false none none none none : Quadtree T).points = qs from rfl,
    show (mk b c qs false none none none none : Quadtree T).capacity = c from rfl]
  rw [hp]
  simp only [Bool.not_true, Bool.false_eq_true, if_false]
  rw [if_neg (by omega)]
  rw [if_neg (by simp)]
  rw [show (mk b c qs false none none none none : Quadtree T).subdivide32 =
    mk b c qs true (some (new (tl_rect32 b) c)) (some (new (tr_rect32 b) c))
      (some (new (bl_rect32 b) c)) (some (new (br_rect32 b) c)) from rfl]
  rw [insert_kids32]
  by_cases c1 : (tl_rect32 b).contains_point32 p = true
  · rw [insert32_new_eq hcap, if_pos c1]
    exact ⟨mk (tl_rect32 b) c [p] false none none none none,
      new (tr_rect32 b) c, new (bl_rect32 b) c, new (br_rect32 b) c, true,
      by simp, rfl, rfl, rfl, rfl⟩
  · rw [insert32_new_eq hcap, if_neg c1]
    simp only [Bool.false_eq_true, if_false]
    by_cases c2 : (tr_rect32 b).contains_point32 p = true
    · rw [insert32_new_eq hcap, if_pos c2]
      exact ⟨new (tl_rect32 b) c, mk (tr_rect32 b) c [p] false none none none none,
        new (bl_rect32 b) c, new (br_rect32 b) c, true, by simp, rfl, rfl, rfl, rfl⟩
    · rw [insert32_new_eq hcap, if_neg c2]
      simp only [Bool.false_eq_true, if_false]
      by_cases c3 : (bl_rect32 b).contains_point32 p = true
      · rw [insert32_new_eq hcap, if_pos c3]
        exact ⟨new (tl_rect32 b) c, new (tr_rect32 b) c,
          mk (bl_rect32 b) c [p] false none none none none, new (br_rect32 b) c,
          true, by simp, rfl, rfl, rfl, rfl⟩
      · rw [insert32_new_eq hcap, if_neg c3]
        simp only [Bool.false_eq_true, if_false]
        by_cases c4 : (br_rect32 b).contains_point32 p = true
        · rw [insert32_new_eq hcap, if_pos c4]
          exact ⟨new (tl_rect32 b) c, new (tr_rect32 b) c, new (bl_rect32 b) c,
            mk (br_rect32 b) c [p] false none none none none, true,
            by simp, rfl, rfl, rfl, rfl⟩
        · rw [insert32_new_eq hcap, if_neg c4]
          exact ⟨new (tl_rect32 b) c, new (tr_rect32 b) c, new (bl_rect32 b) c,
            new (br_rect32 b) c, false, by simp, rfl, rfl, rfl, rfl⟩

/-- C5: from a fresh tree of capacity `c ≥ 1`, inserting exactly `c`
contained points leaves the root undivided with no children, and a further
contained insertion causes exactly one subdivision, at the root, with all
four children remaining undivided. Both halves are stated for the exact
model (`insert`) and for the bit-exact `f32` model (`insert32`): the
subdivision behaviour is arithmetic-independent (the overflow insertion
subdivides once and fresh children never subdivide further, whether or not
any child accepts the point). -/
theorem claim_c5 (b : Qrect) (c : Nat) (ps : List (Point T)) (pn : Point T)
    (fuel fuel2 : Nat) (hcap : 1 ≤ c) (hlen : ps.length = c)
    (hf : 1 ≤ fuel) (hf2 : 2 ≤ fuel2) :
    ((∀ p ∈ ps, b.contains_point p = true) →
      insert_all fuel (new b c) ps =
        some (mk b c ps false none none none none, c)) ∧
    (b.contains_point pn = true →
      ∃ (u1 u2 u3 u4 : Quadtree T) (bb : Bool),
        insert fuel2 (mk b c ps false none none none none) pn =
          some (mk b c ps true (some u1) (some u2) (some u3) (some u4), bb) ∧
        u1.divided = false ∧ u2.divided = false ∧
        u3.divided = false ∧ u4.divided = false) ∧
    ((∀ p ∈ ps, b.contains_point32 p = true) →
      insert_all32 fuel (new b c) ps =
        some (mk b c ps false none none none none, c)) ∧
    (b.contains_point32 pn = true →
      ∃ (u1 u2 u3 u4 : Quadtree T) (bb : Bool),
        insert32 fuel2 (mk b c ps false none none none none) pn =
          some (mk b c ps true (some u1) (some u2) (some u3) (some u4), bb) ∧
        u1.divided = false ∧ u2.divided = false ∧
        u3.divided = false ∧ u4.divided = false) := by
  refine ⟨?_, ?_, ?_, ?_⟩
  · intro hps
    have := insert_all_leaf ps b c [] fuel hps (by simp [hlen]) hf
    simpa [new, hlen] using this
  · intro hpn
    obtain ⟨u1, u2, u3, u4, heq, d1, d2, d3, d4⟩ := insert_full_leaf hcap hlen hpn hf2
    exact ⟨u1, u2, u3, u4, true, heq, d1, d2, d3, d4⟩
  · intro hps
    have := insert_all32_leaf ps b c [] fuel hps (by simp [hlen]) hf
    simpa [new, hlen] using this
  · intro hpn
    exact insert32_full_leaf hcap hlen hpn hf2

/-- Witness for C5 at capacity 1: one point fills the fresh root, a second
point forces the single subdivision — in both arithmetic models. -/
theorem claim_c5_witness :
    insert_all 1 (new (Qrect.new 50 50 50 50) 1) [Point.mk 25 25 (0 : Nat)] =
      some (mk (Qrect.new 50 50 50 50) 1 [Point.mk 25 25 0] false none none none none, 1) ∧
    (∃ (u1 u2 u3 u4 : Quadtree Nat) (bb : Bool),
      insert 2 (mk (Qrect.new 50 50 50 50) 1 [Point.mk 25 25 (0 : Nat)] false none none none none)
          (Point.mk 30 30 1) =
        some (mk (Qrect.new 50 50 50 50) 1 [Point.mk 25 25 0] true
          (some u1) (some u2) (some u3) (some u4), bb) ∧
      u1.divided = false ∧ u2.divided = false ∧
      u3.divided = false ∧ u4.divided = false) ∧
    insert_all32 1 (new (Qrect.new 50 50 50 50) 1) [Point.mk 25 25 (0 : Nat)] =
      some (mk (Qrect.new 50 50 50 50) 1 [Point.mk 25 25 0] false none none none none, 1) ∧
    (∃ (u1 u2 u3 u4 : Quadtree Nat) (bb : Bool),
      insert32 2 (mk (Qrect.new 50 50 50 50) 1 [Point.mk 25 25 (0 : Nat)] false none none none none)
          (Point.mk 30 30 1) =
        some (mk (Qrect.new 50 50 50 50) 1 [Point.mk 25 25 0] true
          (some u1) (some u2) (some u3) (some u4), bb) ∧
      u1.divided = false ∧ u2.divided = false ∧
      u3.divided = false ∧ u4.divided = false) := by
  have e0 : fl (0 : ℚ) = 0 := fl_zero
  have e100 : fl (100 : ℚ) = 100 :=
    fl_repr (e := 6) (m := 100 * 2 ^ 17) (by norm_num) (by norm_num) (by norm_num) (by norm_num)
  have hc25 : (Qrect.new 50 50 50 50).contains_point32 (Point.mk 25 25 (0 : Nat)) = true := by
    simp only [Qrect.contains_point32, Qrect.new, fsub, fadd]
    norm_num [e0, e100]
  have hc30 : (Qrect.new 50 50 50 50).contains_point32 (Point.mk 30 30 (1 : Nat)) = true := by
    simp only [Qrect.contains_point32, Qrect.new, fsub, fadd]
    norm_num [e0, e100]
  have h := claim_c5 (Qrect.new 50 50 50 50) 1 [Point.mk 25 25 (0 : Nat)]
    (Point.mk 30 30 1) 1 2 (by omega) (by simp) (by omega) (by omega)
  refine ⟨h.1 ?_, h.2.1 ?_, h.2.2.1 ?_, h.2.2.2 ?_⟩
  · intro p hp
    simp only [List.mem_singleton] at hp
    subst hp
    norm_num [Qrect.contains_point, Qrect.new]
  · norm_num [Qrect.contains_point, Qrect.new]
  · intro p hp
    simp only [List.mem_singleton] at hp
    subst hp
    exact hc25
  · exact hc30

/-- The child-attempt phase threads the existing child slots: every child
present before is present after with the same boundary and capacity and
with its own point list only extended — children are never recreated. -/
theorem insert_kids_children {fuel : Nat} {q t' : Quadtree T} {p : Point T} {bb : Bool}
    (h : insert_kids fuel q p = some (t', bb)) :
    (∀ u, q.top_left = some u → ∃ u', t'.top_left = some u' ∧
      u'.boundary = u.boundary ∧ u'.capacity = u.capacity ∧
      ∃ l, u'.points = u.points ++ l) ∧
    (∀ u, q.top_right = some u → ∃ u', t'.top_right = some u' ∧
      u'.boundary = u.boundary ∧ u'.capacity = u.capacity ∧
      ∃ l, u'.points = u.points ++ l) ∧
    (∀ u, q.bottom_left = some u → ∃ u', t'.bottom_left = some u' ∧
      u'.boundary = u.boundary ∧ u'.capacity = u.capacity ∧
      ∃ l, u'.points = u.points ++ l) ∧
    (∀ u, q.bottom_right = some u → ∃ u', t'.bottom_right = some u' ∧
      u'.boundary = u.boundary ∧ u'.capacity = u.capacity ∧
      ∃ l, u'.points = u.points ++ l) := by
  cases q with
  | mk b c ps d tl tr bl br =>
    cases tl with
    | none => simp [insert_kids] at h
    | some u1 =>
    cases tr with
    | none => simp [insert_kids] at h
    | some u2 =>
    cases bl with
    | none => simp [insert_kids] at h
    | some u3 =>
    cases br with
    | none => simp [insert_kids] at h
    | some u4 =>
    have keep : ∀ (o : Quadtree T) (u : Quadtree T), (some o : Option (Quadtree T)) = some u →
        ∃ u', (some o : Option (Quadtree T)) = some u' ∧ u'.boundary = u.boundary ∧
          u'.capacity = u.capacity ∧ ∃ l, u'.points = u.points ++ l := by
      intro o u hu
      obtain rfl : o = u := by simpa using hu
      exact ⟨o, rfl, rfl, rfl, [], by simp⟩
    have step : ∀ (v v' : Quadtree T) (b2 : Bool) (u : Quadtree T),
        insert fuel v p = some (v', b2) → (some v : Option (Quadtree T)) = some u →
        ∃ u', (some v' : Option (Quadtree T)) = some u' ∧ u'.boundary = u.boundary ∧
          u'.capacity = u.capacity ∧ ∃ l, u'.points = u.points ++ l := by
      intro v v' b2 u hv hu
      obtain rfl : v = u := by simpa using hu
      obtain ⟨fb, fc, l, hl⟩ := insert_frame hv
      exact ⟨v', rfl, fb, fc, l, hl⟩
    rw [insert_kids] at h
    cases h1 : insert fuel u1 p with
    | none => rw [h1] at h; simp at h
    | some r1 =>
    rw [h1] at h
    obtain ⟨u1', b1⟩ := r1
    cases b1 with
    | true =>
      obtain ⟨rfl, rfl⟩ : mk b c ps d (some u1') (some u2) (some u3) (some u4) = t' ∧ true = bb := by
        simpa using h
      exact ⟨fun u hu => step u1 u1' true u h1 hu, fun u hu => keep u2 u hu,
        fun u hu => keep u3 u hu, fun u hu => keep u4 u hu⟩
    | false =>
    simp only [Bool.false_eq_true, if_false] at h
    cases h2 : insert fuel u2 p with
    | none => rw [h2] at h; simp at h
    | some r2 =>
    rw [h2] at h
    obtain ⟨u2', b2⟩ := r2
    cases b2 with
    | true =>
      obtain ⟨rfl, rfl⟩ : mk b c ps d (some u1') (some u2') (some u3) (some u4) = t' ∧ true = bb := by
        simpa using h
      exact ⟨fun u hu => step u1 u1' false u h1 hu, fun u hu => step u2 u2' true u h2 hu,
        fun u hu => keep u3 u hu, fun u hu => keep u4 u hu⟩
    | false =>
    simp only [Bool.false_eq_true, if_false] at h
    cases h3 : insert fuel u3 p with
    | none => rw [h3] at h; simp at h
    | some r3 =>
    rw [h3] at h
    obtain ⟨u3', b3⟩ := r3
    cases b3 with
    | true =>
      obtain ⟨rfl, rfl⟩ : mk b c ps d (some u1') (some u2') (some u3') (some u4) = t' ∧ true = bb := by
        simpa using h
      exact ⟨fun u hu => step u1 u1' false u h1 hu, fun u hu => step u2 u2' false u h2 hu,
        fun u hu => step u3 u3' true u h3 hu, fun u hu => keep u4 u hu⟩
    | false =>
    simp only [Bool.false_eq_true, if_false] at h
    cases h4 : insert fuel u4 p with
    | none => rw [h4] at h; simp at h
    | some r4 =>
    rw [h4] at h
    obtain ⟨u4', b4⟩ := r4
    obtain ⟨rfl, rfl⟩ : mk b c ps d (some u1') (some u2') (some u3') (some u4') = t' ∧ b4 = bb := by
      simpa using h
    exact ⟨fun u hu => step u1 u1' false u h1 hu, fun u hu => step u2 u2' false u h2 hu,
      fun u hu => step u3 u3' false u h3 hu, fun u hu => step u4 u4' b4 u h4 hu⟩

/-- C6: subdividing a node with boundary center `(x, y)` and half-extents
`(w, h)` installs exactly four fresh empty children with the parent's
capacity over the quadrant rectangles TL `(x − w/2, y − h/2)`,
TR `(x + w/2, y − h/2)`, BL `(x − w/2, y + h/2)`, BR `(x + w/2, y + h/2)`,
all with half-extents `(w/2, h/2)`, and sets `divided`; and subdivision is
never re-run on an already divided node: insertion into a divided node
keeps it divided and threads the existing children (same boundary and
capacity, point lists only extended) instead of recreating them. -/
theorem claim_c6 :
    (∀ t : Quadtree T, subdivide t = mk t.boundary t.capacity t.points true
      (some (new (Qrect.new (t.boundary.x - t.boundary.w / 2)
        (t.boundary.y - t.boundary.h / 2) (t.boundary.w / 2) (t.boundary.h / 2)) t.capacity))
      (some (new (Qrect.new (t.boundary.x + t.boundary.w / 2)
        (t.boundary.y - t.boundary.h / 2) (t.boundary.w / 2) (t.boundary.h / 2)) t.capacity))
      (some (new (Qrect.new (t.boundary.x - t.boundary.w / 2)
        (t.boundary.y + t.boundary.h / 2) (t.boundary.w / 2) (t.boundary.h / 2)) t.capacity))
      (some (new (Qrect.new (t.boundary.x + t.boundary.w / 2)
        (t.boundary.y + t.boundary.h / 2) (t.boundary.w / 2) (t.boundary.h / 2)) t.capacity))) ∧
    (∀ (fuel : Nat) (t t' : Quadtree T) (p : Point T) (bb : Bool),
      t.divided = true → insert fuel t p = some (t', bb) →
      t'.divided = true ∧
      (∀ u, t.top_left = some u → ∃ u', t'.top_left = some u' ∧
        u'.boundary = u.boundary ∧ u'.capacity = u.capacity ∧
        ∃ l, u'.points = u.points ++ l) ∧
      (∀ u, t.top_right = some u → ∃ u', t'.top_right = some u' ∧
        u'.boundary = u.boundary ∧ u'.capacity = u.capacity ∧
        ∃ l, u'.points = u.points ++ l) ∧
      (∀ u, t.bottom_left = some u → ∃ u', t'.bottom_left = some u' ∧
        u'.boundary = u.boundary ∧ u'.capacity = u.capacity ∧
        ∃ l, u'.points = u.points ++ l) ∧
      (∀ u, t.bottom_right = some u → ∃ u', t'.bottom_right = some u' ∧
        u'.boundary = u.boundary ∧ u'.capacity = u.capacity ∧
        ∃ l, u'.points = u.points ++ l)) := by
  constructor
  · intro t
    cases t with
    | mk b c ps d tl tr bl br => rfl
  · intro fuel t t' p bb hd h
    cases fuel with
    | zero => rw [insert_zero] at h; exact absurd h (by simp)
    | succ fuel =>
      rw [insert_succ] at h
      by_cases hc : t.boundary.contains_point p = true
      · simp only [hc, Bool.not_true, Bool.false_eq_true, if_false] at h
        by_cases hl : t.points.length < t.capacity
        · rw [if_pos hl] at h
          obtain ⟨rfl, rfl⟩ : t.push_point p = t' ∧ true = bb := by simpa using h
          cases t with
          | mk b c ps d tl tr bl br =>
            simp only [divided_mk] at hd
            refine ⟨by simpa [push_point] using hd, ?_, ?_, ?_, ?_⟩ <;>
              · intro u hu
                exact ⟨u, by simpa [push_point] using hu, rfl, rfl, [], by simp⟩
        · rw [if_neg hl, if_pos hd] at h
          obtain ⟨kc1, kc2, kc3, kc4⟩ := insert_kids_children h
          have hdd := (insert_kids_frame h).2.2.2
          exact ⟨hdd.trans hd, kc1, kc2, kc3, kc4⟩
      · simp only [Bool.not_eq_true] at hc
        simp only [hc, Bool.not_false, if_true] at h
        obtain ⟨rfl, rfl⟩ : t = t' ∧ false = bb := by simpa using h
        refine ⟨hd, ?_, ?_, ?_, ?_⟩ <;>
          · intro u hu
            exact ⟨u, hu, rfl, rfl, [], by simp⟩

/-- Witness for C6: the subdivide equation at a concrete node, and an
insertion into a concrete divided tree that keeps it divided. -/
theorem claim_c6_witness :
    subdivide (new (Qrect.new 50 50 50 50) 4 : Quadtree Nat) =
      mk (Qrect.new 50 50 50 50) 4 [] true
        (some (new (Qrect.new 25 25 25 25) 4)) (some (new (Qrect.new 75 25 25 25) 4))
        (some (new (Qrect.new 25 75 25 25) 4)) (some (new (Qrect.new 75 75 25 25) 4)) ∧
    (mk (Qrect.new 50 50 50 50) 1 [Point.mk 25 25 (0 : Nat)] true
        (some (mk (Qrect.new 25 25 25 25) 1 [Point.mk 25 25 1] false none none none none))
        (some (new (Qrect.new 75 25 25 25) 1))
        (some (new (Qrect.new 25 75 25 25) 1))
        (some (new (Qrect.new 75 75 25 25) 1))).divided = true ∧
    insert 2 (mk (Qrect.new 50 50 50 50) 1 [Point.mk 25 25 (0 : Nat)] true
        (some (mk (Qrect.new 25 25 25 25) 1 [Point.mk 25 25 1] false none none none none))
        (some (new (Qrect.new 75 25 25 25) 1))
        (some (new (Qrect.new 25 75 25 25) 1))
        (some (new (Qrect.new 75 75 25 25) 1))) (Point.mk 75 25 2) =
      some (mk (Qrect.new 50 50 50 50) 1 [Point.mk 25 25 0] true
        (some (mk (Qrect.new 25 25 25 25) 1 [Point.mk 25 25 1] false none none none none))
        (some (mk (Qrect.new 75 25 25 25) 1 [Point.mk 75 25 2] false none none none none))
        (some (new (Qrect.new 25 75 25 25) 1))
        (some (new (Qrect.new 75 75 25 25) 1)), true) ∧
    (mk (Qrect.new 50 50 50 50) 1 [Point.mk 25 25 (0 : Nat)] true
        (some (mk (Qrect.new 25 25 25 25) 1 [Point.mk 25 25 1] false none none none none))
        (some (mk (Qrect.new 75 25 25 25) 1 [Point.mk 75 25 2] false none none none none))
        (some (new (Qrect.new 25 75 25 25) 1))
        (some (new (Qrect.new 75 75 25 25) 1))).divided = true := by
  have h : insert 2 (mk (Qrect.new 50 50 50 50) 1 [Point.mk 25 25 (0 : Nat)] true
        (some (mk (Qrect.new 25 25 25 25) 1 [Point.mk 25 25 1] false none none none none))
        (some (new (Qrect.new 75 25 25 25) 1))
        (some (new (Qrect.new 25 75 25 25) 1))
        (some (new (Qrect.new 75 75 25 25) 1))) (Point.mk 75 25 2) =
      some (mk (Qrect.new 50 50 50 50) 1 [Point.mk 25 25 0] true
        (some (mk (Qrect.new 25 25 25 25) 1 [Point.mk 25 25 1] false none none none none))
        (some (mk (Qrect.new 75 25 25 25) 1 [Point.mk 75 25 2] false none none none none))
        (some (new (Qrect.new 25 75 25 25) 1))
        (some (new (Qrect.new 75 75 25 25) 1)), true) := by
    norm_num [insert_succ, insert_kids, new, push_point, Qrect.new,
      Qrect.contains_point, boundary, points, capacity, divided]
  refine ⟨?_, rfl, h, ?_⟩
  · rw [(claim_c6 (T := Nat)).1 (new (Qrect.new 50 50 50 50) 4)]
    norm_num [new, Qrect.new, boundary, capacity, points]
  · exact ((claim_c6 (T := Nat)).2 2 _ _ (Point.mk 75 25 2) true (by rfl) h).1

/-- A point inside the bounding square of half-extent `r` forces `r` to be
non-negative. -/
theorem r_nonneg_of_contains {x y r : ℚ} {p : Point T}
    (h : (Qrect.new x y r r).contains_point p = true) : 0 ≤ r := by
  rw [contains_point_iff] at h
  simp only [Qrect.new] at h
  obtain ⟨h1, h2, -, -⟩ := h
  linarith

/-- For a non-negative radius, the squared-distance comparison of the
src variant agrees with the square-rooted comparison of the packaged
variant. -/
theorem circle_test_bridge {x y r : ℚ} (p : Point T) (hr : 0 ≤ r) :
    ((p.x - x) * (p.x - x) + (p.y - y) * (p.y - y) < r * r) ↔
      Real.sqrt (((p.x - x) * (p.x - x) + (p.y - y) * (p.y - y) : ℚ) : ℝ) < (r : ℝ) := by
  have hd : (0 : ℚ) ≤ (p.x - x) * (p.x - x) + (p.y - y) * (p.y - y) := by
    have h1 := mul_self_nonneg (p.x - x)
    have h2 := mul_self_nonneg (p.y - y)
    linarith
  rcases eq_or_lt_of_le hr with hr0 | hrpos
  · constructor
    · intro h
      exfalso
      rw [← hr0] at h
      simp only [mul_zero] at h
      linarith
    · intro h
      exfalso
      have := Real.sqrt_nonneg (((p.x - x) * (p.x - x) + (p.y - y) * (p.y - y) : ℚ) : ℝ)
      rw [← hr0] at h
      simp only [Rat.cast_zero] at h
      linarith
  · rw [Real.sqrt_lt' (by exact_mod_cast hrpos)]
    rw [show ((r : ℝ)) ^ 2 = ((r * r : ℚ) : ℝ) by push_cast; ring]
    exact_mod_cast Iff.rfl

/-- On a well-formed tree the circle query filters the stored points by the
bounding-square test and the strict squared-distance test. -/
theorem query_circle_eq (t : Quadtree T) (hwf : wf t = true) (x y r : ℚ) :
    query_circle t x y r =
      some ((all_points t).filter fun p =>
        (Qrect.new x y r r).contains_point p &&
          decide ((p.x - x) * (p.x - x) + (p.y - y) * (p.y - y) < r * r)) := by
  rw [query_circle]
  dsimp only
  rw [query_rect_eq_spec t hwf, query_rect_spec_eq_filter]
  dsimp only
  rw [List.filter_filter]
  congr 1
  apply List.filter_congr
  intro p hp
  by_cases hx : (p.x - x) * (p.x - x) + (p.y - y) * (p.y - y) < r * r <;>
    by_cases hc : (Qrect.new x y r r).contains_point p = true <;>
    simp [hx, hc]

/-- On an `f32`-well-formed tree the `f32` circle query filters the stored
points by the `f32` bounding-square test and the strict rounded
squared-distance test. -/
theorem query_circle32_eq (t : Quadtree T) (hwf : wf32 t = true) (x y r : ℚ) :
    query_circle32 t x y r =
      some ((all_points t).filter fun p =>
        (Qrect.new x y r r).contains_point32 p &&
          decide (fadd (fmul (fsub p.x x) (fsub p.x x))
            (fmul (fsub p.y y) (fsub p.y y)) < fmul r r)) := by
  rw [query_circle32]
  dsimp only
  rw [query_rect32_eq t hwf]
  dsimp only
  rw [List.filter_filter]
  congr 1
  apply List.filter_congr
  intro p hp
  by_cases hx : fadd (fmul (fsub p.x x) (fsub p.x x))
      (fmul (fsub p.y y) (fsub p.y y)) < fmul r r <;>
    by_cases hc : (Qrect.new x y r r).contains_point32 p = true <;>
    simp [hx, hc]

open Classical in
/-- On an `f32`-well-formed tree the `f32` sqrt-variant circle query filters
the stored points by the `f32` bounding-square test and the strict
comparison of the rounded square root of the rounded squared distance
against the radius. -/
theorem query_circle_sqrt32_eq (t : Quadtree T) (hwf : wf32 t = true) (x y r : ℚ) :
    query_circle_sqrt32 t x y r =
      some ((all_points t).filter fun p =>
        (Qrect.new x y r r).contains_point32 p &&
          decide (fsqrt (fadd (fmul (fsub p.x x) (fsub p.x x))
            (fmul (fsub p.y y) (fsub p.y y))) < ((r : ℚ) : ℝ))) := by
  rw [query_circle_sqrt32]
  dsimp only
  rw [query_rect32_eq t hwf]
  dsimp only
  rw [List.filter_filter]
  congr 1
  apply List.filter_congr
  intro p hp
  by_cases hx : fsqrt (fadd (fmul (fsub p.x x) (fsub p.x x))
      (fmul (fsub p.y y) (fsub p.y y))) < ((r : ℚ) : ℝ) <;>
    by_cases hc : (Qrect.new x y r r).contains_point32 p = true <;>
    simp [hx, hc]

/-- C10 (corrected): over exact rationals, with non-positive radius the
circle query answers the empty sequence on every reachable tree: for
`r = 0` the bounding square admits only the exact center, which the strict
test then rejects, and for `r < 0` the inverted bounding square contains
no point at all. Under the source's `f32` arithmetic only the `r = 0` case
survives (at exactly representable centers): for `r < 0` the rounded edges
`x ∓ r` can collapse onto a stored coordinate while `r * r` rounds to a
positive value, so a point can be returned. -/
theorem claim_c10 (t : Quadtree T) (hr : Reachable t) (x y r : ℚ)
    (hneg : r ≤ 0) :
    query_circle t x y r = some [] ∧
    (r = 0 → ∀ t32 : Quadtree T, wf32 t32 = true → fl x = x → fl y = y →
      query_circle32 t32 x y r = some []) := by
  constructor
  · rw [query_circle_eq t (reachable_wf hr)]
    congr 1
    rw [List.filter_eq_nil_iff]
    intro p hp
    simp only [Bool.and_eq_true, decide_eq_true_eq, not_and]
    intro hcont
    have h0 : 0 ≤ r := r_nonneg_of_contains hcont
    obtain rfl : r = 0 := le_antisymm hneg h0
    have h1 := mul_self_nonneg (p.x - x)
    have h2 := mul_self_nonneg (p.y - y)
    intro hlt
    simp only [mul_zero] at hlt
    linarith
  · rintro rfl t32 hwf hx hy
    rw [query_circle32_eq t32 hwf]
    congr 1
    rw [List.filter_eq_nil_iff]
    intro p hp
    simp only [Bool.and_eq_true, decide_eq_true_eq, not_and]
    intro hcont
    rw [contains_point32_iff] at hcont
    simp only [Qrect.new, fsub, fadd, sub_zero, add_zero, hx, hy] at hcont
    obtain ⟨hx1, hx2, hy1, hy2⟩ := hcont
    have hpx : p.x = x := le_antisymm hx2 hx1
    have hpy : p.y = y := le_antisymm hy2 hy1
    simp [hpx, hpy, fsub, fadd, fmul, fl_zero]

/-- Witness for C10 at a concrete reachable tree, radius zero and a
negative radius, in both arithmetic models. -/
theorem claim_c10_witness :
    Reachable (new (Qrect.new 50 50 50 50) 4 : Quadtree Nat) ∧
    ((0 : ℚ) ≤ 0 ∧ query_circle (new (Qrect.new 50 50 50 50) 4 : Quadtree Nat) 25 25 0 = some []) ∧
    ((-3 : ℚ) ≤ 0 ∧ query_circle (new (Qrect.new 50 50 50 50) 4 : Quadtree Nat) 25 25 (-3) = some []) ∧
    (wf32 (new (Qrect.new 50 50 50 50) 4 : Quadtree Nat) = true ∧
      query_circle32 (new (Qrect.new 50 50 50 50) 4 : Quadtree Nat) 25 25 0 = some []) := by
  have e25 : fl (25 : ℚ) = 25 :=
    fl_repr (e := 4) (m := 25 * 2 ^ 19) (by norm_num) (by norm_num) (by norm_num) (by norm_num)
  exact ⟨Reachable.new _ _,
    ⟨le_rfl, (claim_c10 _ (Reachable.new _ _) 25 25 0 le_rfl).1⟩,
    ⟨by norm_num, (claim_c10 _ (Reachable.new _ _) 25 25 (-3) (by norm_num)).1⟩,
    ⟨wf32_new _ _,
      (claim_c10 (new (Qrect.new 50 50 50 50) 4 : Quadtree Nat) (Reachable.new _ _) 25 25 0
        le_rfl).2 rfl _ (wf32_new _ _) e25 e25⟩⟩

open Classical in
/-- C4 (corrected): over exact rationals, on every reachable tree the circle
query returns exactly the stored points whose Euclidean distance to the
center is strictly below the radius, and a point at distance exactly `r` is
excluded. Under the source's `f32` arithmetic the query instead filters by
the `f32` bounding-square test and the strict comparison of the rounded
squared distance against the rounded squared radius — a test the rounding
can tip either way at distance exactly `r`, so such a point may be
included. -/
theorem claim_c4 (t : Quadtree T) (hr : Reachable t) (x y r : ℚ) :
    (query_circle t x y r =
      some ((all_points t).filter fun p => decide (dist_to p x y < (r : ℝ)))) ∧
    (∀ t32 : Quadtree T, wf32 t32 = true →
      query_circle32 t32 x y r =
        some ((all_points t32).filter fun p =>
          (Qrect.new x y r r).contains_point32 p &&
            decide (fadd (fmul (fsub p.x x) (fsub p.x x))
              (fmul (fsub p.y y) (fsub p.y y)) < fmul r r))) := by
  refine ⟨?_, fun t32 hwf32 => query_circle32_eq t32 hwf32 x y r⟩
  rw [query_circle_eq t (reachable_wf hr)]
  congr 1
  apply List.filter_congr
  intro p hp
  by_cases hd : dist_to p x y < (r : ℝ)
  · have hrpos : (0 : ℝ) < (r : ℝ) := lt_of_le_of_lt (Real.sqrt_nonneg _) hd
    have hr0 : 0 ≤ r := by exact_mod_cast hrpos.le
    have hsq : (p.x - x) * (p.x - x) + (p.y - y) * (p.y - y) < r * r :=
      (circle_test_bridge p hr0).mpr hd
    have hcont : (Qrect.new x y r r).contains_point p = true := by
      rw [contains_point_iff]
      simp only [Qrect.new]
      have hx2 : (p.x - x) * (p.x - x) < r * r := by
        have := mul_self_nonneg (p.y - y)
        linarith
      have hy2 : (p.y - y) * (p.y - y) < r * r := by
        have := mul_self_nonneg (p.x - x)
        linarith
      have hrq : 0 < r := by exact_mod_cast hrpos
      refine ⟨by nlinarith, by nlinarith, by nlinarith, by nlinarith⟩
    simp [hd, hcont, hsq]
  · by_cases hcont : (Qrect.new x y r r).contains_point p = true
    · have hr0 : 0 ≤ r := r_nonneg_of_contains hcont
      have hsq : ¬((p.x - x) * (p.x - x) + (p.y - y) * (p.y - y) < r * r) :=
        fun hlt => hd ((circle_test_bridge p hr0).mp hlt)
      simp [hd, hcont, hsq]
    · simp only [Bool.not_eq_true] at hcont
      simp [hd, hcont]

open Classical in
/-- Witness for C4 at a concrete reachable tree, center and radius, in both
arithmetic models. -/
theorem claim_c4_witness :
    Reachable (new (Qrect.new 50 50 50 50) 4 : Quadtree Nat) ∧
    query_circle (new (Qrect.new 50 50 50 50) 4 : Quadtree Nat) 25 25 1 =
      some ((all_points (new (Qrect.new 50 50 50 50) 4 : Quadtree Nat)).filter
        fun p => decide (dist_to p 25 25 < ((1 : ℚ) : ℝ))) ∧
    (wf32 (new (Qrect.new 50 50 50 50) 4 : Quadtree Nat) = true ∧
      query_circle32 (new (Qrect.new 50 50 50 50) 4 : Quadtree Nat) 25 25 1 =
        some ((all_points (new (Qrect.new 50 50 50 50) 4 : Quadtree Nat)).filter
          fun p =>
            (Qrect.new 25 25 1 1).contains_point32 p &&
              decide (fadd (fmul (fsub p.x 25) (fsub p.x 25))
                (fmul (fsub p.y 25) (fsub p.y 25)) < fmul 1 1))) :=
  ⟨Reachable.new _ _,
    (claim_c4 _ (Reachable.new (Qrect.new 50 50 50 50) 4) 25 25 1).1,
    wf32_new _ _,
    (claim_c4 (new (Qrect.new 50 50 50 50) 4 : Quadtree Nat)
      (Reachable.new (Qrect.new 50 50 50 50) 4) 25 25 1).2 _ (wf32_new _ _)⟩

/-- C7: the two reference variants of the circle query — squared distance
against squared radius (src) and square-rooted distance against the radius
(packaged 0.1.2) — return the same sequence on every tree, center and
radius, zero and negative radii included. -/
theorem claim_c7 (t : Quadtree T) (x y r : ℚ) :
    query_circle t x y r = query_circle_sqrt t x y r := by
  rw [query_circle, query_circle_sqrt]
  dsimp only
  cases hq : query_rect t (Qrect.new x y r r) with
  | none => rfl
  | some l =>
    simp only []
    congr 1
    apply List.filter_congr
    intro p hp
    have hcont : (Qrect.new x y r r).contains_point p = true :=
      mem_query_rect t (Qrect.new x y r r) l p hq hp
    have hr0 : 0 ≤ r := r_nonneg_of_contains hcont
    by_cases hlt : (p.x - x) * (p.x - x) + (p.y - y) * (p.y - y) < r * r
    · rw [if_pos hlt, if_pos ((circle_test_bridge p hr0).mp hlt)]
    · rw [if_neg hlt, if_neg (fun hs => hlt ((circle_test_bridge p hr0).mpr hs))]

/-- Sample `f32` insertion: the point `(12291, 16388)` is accepted into a
fresh capacity-4 tree on `[0, 40000] × [0, 40000]`. -/
theorem ins32_sample :
    insert32 1 (new (Qrect.new 20000 20000 20000 20000) 4)
        (Point.mk 12291 16388 (0 : Nat)) =
      some (mk (Qrect.new 20000 20000 20000 20000) 4
        [Point.mk 12291 16388 0] false none none none none, true) := by
  have f0 : fl (0 : ℚ) = 0 := fl_zero
  have f40000 : fl (40000 : ℚ) = 40000 :=
    fl_repr (e := 15) (m := 40000 * 2 ^ 8) (by norm_num) (by norm_num) (by norm_num) (by norm_num)
  norm_num [insert32_succ, new, push_point, Qrect.new, Qrect.contains_point32,
    fsub, fadd, boundary, points, capacity, divided, f0, f40000]

/-- Sample `f32` rectangle query: the bounding square of the radius-20485
circle at the origin retains the stored point `(12291, 16388)`. -/
theorem qr32_sample :
    query_rect32 (mk (Qrect.new 20000 20000 20000 20000) 4
        [Point.mk 12291 16388 (0 : Nat)] false none none none none)
      (Qrect.new 0 0 20485 20485) = some [Point.mk 12291 16388 0] := by
  have f0 : fl (0 : ℚ) = 0 := fl_zero
  have f40000 : fl (40000 : ℚ) = 40000 :=
    fl_repr (e := 15) (m := 40000 * 2 ^ 8) (by norm_num) (by norm_num) (by norm_num) (by norm_num)
  have f20485 : fl (20485 : ℚ) = 20485 :=
    fl_repr (e := 14) (m := 20485 * 2 ^ 9) (by norm_num) (by norm_num) (by norm_num) (by norm_num)
  have fneg : fl (-20485 : ℚ) = -20485 := by rw [fl_neg_eq, f20485]
  have hint : (Qrect.new 20000 20000 20000 20000).intersects_rect32
      (Qrect.new 0 0 20485 20485) = true := by
    rw [intersects_rect32_iff]
    norm_num [Qrect.new, fsub, fadd, f0, f40000, f20485, fneg]
  have hcont : (Qrect.new 0 0 20485 20485).contains_point32
      (Point.mk 12291 16388 (0 : Nat)) = true := by
    rw [contains_point32_iff]
    norm_num [Qrect.new, fsub, fadd, f20485, fneg]
  rw [query_rect32]
  simp [hint, hcont, List.filter_cons]

/-- Sample `f32` squared distance: for the point `(12291, 16388)` and the
origin every rounding step lands on `fl ((12291² + 16388²)↓) = 419635200`,
strictly below the exact `20485² = 419635225`. -/
theorem dist32_sample :
    fadd (fmul (fsub (12291 : ℚ) 0) (fsub (12291 : ℚ) 0))
      (fmul (fsub (16388 : ℚ) 0) (fsub (16388 : ℚ) 0)) = 419635200 := by
  have f12291 : fl (12291 : ℚ) = 12291 :=
    fl_repr (e := 13) (m := 12291 * 2 ^ 10) (by norm_num) (by norm_num) (by norm_num) (by norm_num)
  have f16388 : fl (16388 : ℚ) = 16388 :=
    fl_repr (e := 14) (m := 16388 * 2 ^ 9) (by norm_num) (by norm_num) (by norm_num) (by norm_num)
  have fx2 : fl (151068681 : ℚ) = 151068688 := by
    rw [fl_eval_high (e := 27) (n := 9441792) (by norm_num) (by norm_num) (by norm_num)
      (by norm_num) (by norm_num)]
    norm_num
  have fy2 : fl (268566544 : ℚ) = 268566528 := by
    rw [fl_eval_tie_even (e := 28) (n := 8392704) (by norm_num) (by norm_num) (by norm_num)
      (by norm_num) (by norm_num)]
    norm_num
  have fsum : fl (419635216 : ℚ) = 419635200 := by
    rw [fl_eval_tie_even (e := 28) (n := 13113600) (by norm_num) (by norm_num) (by norm_num)
      (by norm_num) (by norm_num)]
    norm_num
  norm_num [fsub, fadd, fmul, f12291, f16388, fx2, fy2, fsum]

/-- Sample `f32` squared radius: `fl (20485 * 20485) = 419635232`, strictly
above the exact square `419635225`. -/
theorem r2_32_sample : fmul (20485 : ℚ) 20485 = 419635232 := by
  have h : fl (419635225 : ℚ) = 419635232 := by
    rw [fl_eval_high (e := 28) (n := 13113600) (by norm_num) (by norm_num) (by norm_num)
      (by norm_num) (by norm_num)]
    norm_num
  norm_num [fmul, h]

/-- Sample `f32` circle query (src variant): the stored point at exact
Euclidean distance 20485 from the origin is returned by the radius-20485
query, because the rounded squared distance 419635200 compares strictly
below the rounded squared radius 419635232. -/
theorem qc32_sample :
    query_circle32 (mk (Qrect.new 20000 20000 20000 20000) 4
        [Point.mk 12291 16388 (0 : Nat)] false none none none none) 0 0 20485 =
      some [Point.mk 12291 16388 0] := by
  have f0 : fl (0 : ℚ) = 0 := fl_zero
  have f40000 : fl (40000 : ℚ) = 40000 :=
    fl_repr (e := 15) (m := 40000 * 2 ^ 8) (by norm_num) (by norm_num) (by norm_num) (by norm_num)
  have f20485 : fl (20485 : ℚ) = 20485 :=
    fl_repr (e := 14) (m := 20485 * 2 ^ 9) (by norm_num) (by norm_num) (by norm_num) (by norm_num)
  have fneg : fl (-20485 : ℚ) = -20485 := by rw [fl_neg_eq, f20485]
  have hwf : wf32 (mk (Qrect.new 20000 20000 20000 20000) 4
      [Point.mk 12291 16388 (0 : Nat)] false none none none none) = true := by
    rw [wf32_mk_iff]
    refine ⟨?_, by simp, by simp⟩
    intro q hq
    simp only [all_points_mk, all_pointsO, List.append_nil, List.mem_singleton] at hq
    subst hq
    rw [contains_point32_iff]
    norm_num [Qrect.new, fsub, fadd, f0, f40000]
  have hcont : (Qrect.new 0 0 20485 20485).contains_point32
      (Point.mk 12291 16388 (0 : Nat)) = true := by
    rw [contains_point32_iff]
    norm_num [Qrect.new, fsub, fadd, f20485, fneg]
  rw [query_circle32_eq _ hwf 0 0 20485]
  rw [show all_points (mk (Qrect.new 20000 20000 20000 20000) 4
      [Point.mk 12291 16388 (0 : Nat)] false none none none none) =
    [Point.mk 12291 16388 0] by simp [all_points_mk, all_pointsO]]
  rw [List.filter_cons]
  dsimp only
  rw [dist32_sample, r2_32_sample, hcont, Bool.true_and]
  rw [decide_eq_true (show (419635200 : ℚ) < 419635232 by norm_num)]
  simp

/-- The correctly rounded `f32` square root of 419635200 is exactly 20485:
the real root lies in `(20485 - 2⁻¹⁰, 20485)` and rounds up. -/
theorem fsqrt_419635200 : fsqrt (419635200 : ℚ) = 20485 := by
  rw [fsqrt]
  rw [show ((419635200 : ℚ) : ℝ) = (419635200 : ℝ) by norm_num]
  have hs0 : (0 : ℝ) ≤ Real.sqrt 419635200 := Real.sqrt_nonneg _
  have hs2 : Real.sqrt 419635200 ^ 2 = 419635200 := Real.sq_sqrt (by norm_num)
  have hup : Real.sqrt 419635200 < 20485 := by
    nlinarith [hs2, hs0]
  have hlo : (20485 : ℝ) - 1 / 1024 < Real.sqrt 419635200 := by
    nlinarith [hs2, hs0]
  have h0 : (0 : ℝ) < Real.sqrt 419635200 := by linarith
  have h1 : (2 : ℝ) ^ (14 : ℤ) ≤ Real.sqrt 419635200 := by
    rw [show ((2 : ℝ) ^ (14 : ℤ)) = 16384 by norm_num]
    linarith
  have h2 : Real.sqrt 419635200 < (2 : ℝ) ^ ((14 : ℤ) + 1) := by
    rw [show ((2 : ℝ) ^ ((14 : ℤ) + 1)) = 32768 by norm_num]
    linarith
  rw [flR_pos_eval h0 h1 h2]
  rw [show Real.sqrt 419635200 * 2 ^ ((23 : ℤ) - 14) = Real.sqrt 419635200 * 512 by norm_num]
  rw [rneR_high (n := 10488319) (by push_cast; linarith) (by push_cast; linarith)]
  norm_num

open Classical in
/-- Sample `f32` circle query (packaged 0.1.2 sqrt variant): on the same
input the square-rooted rounded distance is exactly 20485, which fails the
strict comparison against the radius, so the point is excluded. -/
theorem qsqrt32_sample :
    query_circle_sqrt32 (mk (Qrect.new 20000 20000 20000 20000) 4
        [Point.mk 12291 16388 (0 : Nat)] false none none none none) 0 0 20485 =
      some [] := by
  have f0 : fl (0 : ℚ) = 0 := fl_zero
  have f40000 : fl (40000 : ℚ) = 40000 :=
    fl_repr (e := 15) (m := 40000 * 2 ^ 8) (by norm_num) (by norm_num) (by norm_num) (by norm_num)
  have hwf : wf32 (mk (Qrect.new 20000 20000 20000 20000) 4
      [Point.mk 12291 16388 (0 : Nat)] false none none none none) = true := by
    rw [wf32_mk_iff]
    refine ⟨?_, by simp, by simp⟩
    intro q hq
    simp only [all_points_mk, all_pointsO, List.append_nil, List.mem_singleton] at hq
    subst hq
    rw [contains_point32_iff]
    norm_num [Qrect.new, fsub, fadd, f0, f40000]
  rw [query_circle_sqrt32_eq _ hwf 0 0 20485]
  rw [show all_points (mk (Qrect.new 20000 20000 20000 20000) 4
      [Point.mk 12291 16388 (0 : Nat)] false none none none none) =
    [Point.mk 12291 16388 0] by simp [all_points_mk, all_pointsO]]
  rw [List.filter_cons]
  dsimp only
  rw [dist32_sample, fsqrt_419635200]
  rw [decide_eq_false (show ¬((20485 : ℝ) < ((20485 : ℚ) : ℝ)) by norm_num)]
  simp

/-- Sample `f32` rectangle query with negative half-extents: the rounded
edges `fl (10⁸ ± 1/1000)` both collapse to `10⁸`, so the inverted bounding
square still retains the stored point `(10⁸, 10⁸)`. -/
theorem qr10_sample :
    query_rect32 (mk (Qrect.new 100000000 100000000 100000000 100000000) 4
        [Point.mk 100000000 100000000 (0 : Nat)] false none none none none)
      (Qrect.new 100000000 100000000 (-1 / 1000) (-1 / 1000)) =
      some [Point.mk 100000000 100000000 0] := by
  have f0 : fl (0 : ℚ) = 0 := fl_zero
  have f2e8 : fl (200000000 : ℚ) = 200000000 :=
    fl_repr (e := 27) (m := 12500000) (by norm_num) (by norm_num) (by norm_num) (by norm_num)
  have fplus : fl (100000000001 / 1000 : ℚ) = 100000000 := by
    rw [fl_eval_low (e := 26) (n := 12500000) (by norm_num) (by norm_num) (by norm_num)
      (by norm_num) (by norm_num)]
    norm_num
  have fminus : fl (99999999999 / 1000 : ℚ) = 100000000 := by
    rw [fl_eval_high (e := 26) (n := 12499999) (by norm_num) (by norm_num) (by norm_num)
      (by norm_num) (by norm_num)]
    norm_num
  have hint : (Qrect.new 100000000 100000000 100000000 100000000).intersects_rect32
      (Qrect.new 100000000 100000000 (-1 / 1000) (-1 / 1000)) = true := by
    rw [intersects_rect32_iff]
    norm_num [Qrect.new, fsub, fadd, f0, f2e8, fplus, fminus]
  have hcont : (Qrect.new 100000000 100000000 (-1 / 1000) (-1 / 1000)).contains_point32
      (Point.mk 100000000 100000000 (0 : Nat)) = true := by
    rw [contains_point32_iff]
    norm_num [Qrect.new, fsub, fadd, fplus, fminus]
  rw [query_rect32]
  simp [hint, hcont, List.filter_cons]

/-- Counterexample to C2 as stated: under the source's `f32` arithmetic a
point inside the root boundary can be rejected. The root spans
`[18874366, 23068674]²`, holds one point at capacity 1, and the contained
point `(18874366, 20971520)` is refused: after subdivision the four child
edges round outward (`fl 18874367 = 18874368`, `fl 20971519 = 20971520`),
so no child contains the point and insert returns `false`. -/
theorem claim_c2_counterexample :
    insert32 1 (new (Qrect.new 20971520 20971520 2097154 2097154) 1)
        (Point.mk 20971520 20971520 (0 : Nat)) =
      some (mk (Qrect.new 20971520 20971520 2097154 2097154) 1
        [Point.mk 20971520 20971520 0] false none none none none, true) ∧
    (Qrect.new 20971520 20971520 2097154 2097154).contains_point32
        (Point.mk 18874366 20971520 (1 : Nat)) = true ∧
    insert32 2 (mk (Qrect.new 20971520 20971520 2097154 2097154) 1
        [Point.mk 20971520 20971520 (0 : Nat)] false none none none none)
        (Point.mk 18874366 20971520 1) =
      some (mk (Qrect.new 20971520 20971520 2097154 2097154) 1
        [Point.mk 20971520 20971520 0] true
        (some (new (Qrect.new 19922944 19922944 1048577 1048577) 1))
        (some (new (Qrect.new 22020096 19922944 1048577 1048577) 1))
        (some (new (Qrect.new 19922944 22020096 1048577 1048577) 1))
        (some (new (Qrect.new 22020096 22020096 1048577 1048577) 1)), false) := by
  have f18874366 : fl (18874366 : ℚ) = 18874366 :=
    fl_repr (e := 24) (m := 9437183) (by norm_num) (by norm_num) (by norm_num) (by norm_num)
  have f23068674 : fl (23068674 : ℚ) = 23068674 :=
    fl_repr (e := 24) (m := 11534337) (by norm_num) (by norm_num) (by norm_num) (by norm_num)
  have f1048577 : fl (1048577 : ℚ) = 1048577 :=
    fl_repr (e := 20) (m := 8388616) (by norm_num) (by norm_num) (by norm_num) (by norm_num)
  have f19922943 : fl (19922943 : ℚ) = 19922944 := by
    rw [fl_eval_tie_odd (e := 24) (n := 9961471) (by norm_num) (by norm_num) (by norm_num)
      (by norm_num) (by norm_num)]
    norm_num
  have f22020097 : fl (22020097 : ℚ) = 22020096 := by
    rw [fl_eval_tie_even (e := 24) (n := 11010048) (by norm_num) (by norm_num) (by norm_num)
      (by norm_num) (by norm_num)]
    norm_num
  have f18874367 : fl (18874367 : ℚ) = 18874368 := by
    rw [fl_eval_tie_odd (e := 24) (n := 9437183) (by norm_num) (by norm_num) (by norm_num)
      (by norm_num) (by norm_num)]
    norm_num
  have f20971519 : fl (20971519 : ℚ) = 20971520 := by
    rw [fl_eval_tie_odd (e := 24) (n := 10485759) (by norm_num) (by norm_num) (by norm_num)
      (by norm_num) (by norm_num)]
    norm_num
  have f20971521 : fl (20971521 : ℚ) = 20971520 := by
    rw [fl_eval_tie_even (e := 24) (n := 10485760) (by norm_num) (by norm_num) (by norm_num)
      (by norm_num) (by norm_num)]
    norm_num
  have f23068673 : fl (23068673 : ℚ) = 23068672 := by
    rw [fl_eval_tie_even (e := 24) (n := 11534336) (by norm_num) (by norm_num) (by norm_num)
      (by norm_num) (by norm_num)]
    norm_num
  refine ⟨?_, ?_, ?_⟩ <;>
    norm_num [insert32_succ, insert_kids32, new, subdivide32, push_point,
      tl_rect32, tr_rect32, bl_rect32, br_rect32, Qrect.new, Qrect.contains_point32,
      fsub, fadd, fdiv, boundary, points, capacity, divided,
      f18874366, f23068674, f1048577, f19922943, f22020097, f18874367,
      f20971519, f20971521, f23068673]

/-- Counterexample to C4 as stated: under the source's `f32` arithmetic a
stored point at Euclidean distance exactly `r` from the center is returned
by the radius-`r` circle query, because the rounded squared distance
underestimates and the rounded squared radius overestimates the exact
square `20485² = 419635225`. -/
theorem claim_c4_counterexample :
    insert32 1 (new (Qrect.new 20000 20000 20000 20000) 4)
        (Point.mk 12291 16388 (0 : Nat)) =
      some (mk (Qrect.new 20000 20000 20000 20000) 4
        [Point.mk 12291 16388 0] false none none none none, true) ∧
    ((12291 : ℚ) - 0) * ((12291 : ℚ) - 0) + ((16388 : ℚ) - 0) * ((16388 : ℚ) - 0) =
      20485 * 20485 ∧
    query_circle32 (mk (Qrect.new 20000 20000 20000 20000) 4
        [Point.mk 12291 16388 (0 : Nat)] false none none none none) 0 0 20485 =
      some [Point.mk 12291 16388 0] :=
  ⟨ins32_sample, by norm_num, qc32_sample⟩

/-- Counterexample to C7 as stated: on the same tree, center and radius the
squared-comparison variant (src) returns the stored point while the
square-rooted variant (packaged 0.1.2) returns the empty sequence — under
`f32` arithmetic the two variants are not equivalent. -/
theorem claim_c7_counterexample :
    insert32 1 (new (Qrect.new 20000 20000 20000 20000) 4)
        (Point.mk 12291 16388 (0 : Nat)) =
      some (mk (Qrect.new 20000 20000 20000 20000) 4
        [Point.mk 12291 16388 0] false none none none none, true) ∧
    query_circle32 (mk (Qrect.new 20000 20000 20000 20000) 4
        [Point.mk 12291 16388 (0 : Nat)] false none none none none) 0 0 20485 =
      some [Point.mk 12291 16388 0] ∧
    query_circle_sqrt32 (mk (Qrect.new 20000 20000 20000 20000) 4
        [Point.mk 12291 16388 (0 : Nat)] false none none none none) 0 0 20485 =
      some [] :=
  ⟨ins32_sample, qc32_sample, qsqrt32_sample⟩

/-- Counterexample to C10 as stated: under the source's `f32` arithmetic a
circle query with negative radius can return a point. At center
`(10⁸, 10⁸)` with radius `-1/1000` the rounded bounding-square edges
`fl (10⁸ ± 1/1000)` both collapse to `10⁸`, so the stored point `(10⁸, 10⁸)`
passes the rectangle test, and its rounded squared distance 0 is strictly
below the rounded squared radius `fl (10⁻⁶) > 0`. -/
theorem claim_c10_counterexample :
    insert32 1 (new (Qrect.new 100000000 100000000 100000000 100000000) 4)
        (Point.mk 100000000 100000000 (0 : Nat)) =
      some (mk (Qrect.new 100000000 100000000 100000000 100000000) 4
        [Point.mk 100000000 100000000 0] false none none none none, true) ∧
    (-1 / 1000 : ℚ) ≤ 0 ∧
    query_circle32 (mk (Qrect.new 100000000 100000000 100000000 100000000) 4
        [Point.mk 100000000 100000000 (0 : Nat)] false none none none none)
        100000000 100000000 (-1 / 1000) =
      some [Point.mk 100000000 100000000 0] := by
  have f0 : fl (0 : ℚ) = 0 := fl_zero
  have f2e8 : fl (200000000 : ℚ) = 200000000 :=
    fl_repr (e := 27) (m := 12500000) (by norm_num) (by norm_num) (by norm_num) (by norm_num)
  have fpos : (0 : ℚ) < fl (1 / 1000000) := by
    rw [fl_eval_low (e := -20) (n := 8796093) (by norm_num) (by norm_num) (by norm_num)
      (by norm_num) (by norm_num)]
    norm_num
  have fplus : fl (100000000001 / 1000 : ℚ) = 100000000 := by
    rw [fl_eval_low (e := 26) (n := 12500000) (by norm_num) (by norm_num) (by norm_num)
      (by norm_num) (by norm_num)]
    norm_num
  have fminus : fl (99999999999 / 1000 : ℚ) = 100000000 := by
    rw [fl_eval_high (e := 26) (n := 12499999) (by norm_num) (by norm_num) (by norm_num)
      (by norm_num) (by norm_num)]
    norm_num
  refine ⟨?_, by norm_num, ?_⟩
  · norm_num [insert32_succ, new, push_point, Qrect.new, Qrect.contains_point32,
      fsub, fadd, boundary, points, capacity, divided, f0, f2e8]
  · have hwf : wf32 (mk (Qrect.new 100000000 100000000 100000000 100000000) 4
        [Point.mk 100000000 100000000 (0 : Nat)] false none none none none) = true := by
      rw [wf32_mk_iff]
      refine ⟨?_, by simp, by simp⟩
      intro q hq
      simp only [all_points_mk, all_pointsO, List.append_nil, List.mem_singleton] at hq
      subst hq
      rw [contains_point32_iff]
      norm_num [Qrect.new, fsub, fadd, f0, f2e8]
    have hcont : (Qrect.new 100000000 100000000 (-1 / 1000) (-1 / 1000)).contains_point32
        (Point.mk 100000000 100000000 (0 : Nat)) = true := by
      rw [contains_point32_iff]
      norm_num [Qrect.new, fsub, fadd, fplus, fminus]
    have hdist : fadd
        (fmul (fsub (100000000 : ℚ) 100000000) (fsub (100000000 : ℚ) 100000000))
        (fmul (fsub (100000000 : ℚ) 100000000) (fsub (100000000 : ℚ) 100000000)) = 0 := by
      norm_num [fsub, fadd, fmul, f0]
    have hr2 : (0 : ℚ) < fmul (-1 / 1000) (-1 / 1000) := by
      rw [fmul, show ((-1 / 1000 : ℚ) * (-1 / 1000)) = 1 / 1000000 by norm_num]
      exact fpos
    rw [query_circle32_eq _ hwf 100000000 100000000 (-1 / 1000)]
    rw [show all_points (mk (Qrect.new 100000000 100000000 100000000 100000000) 4
        [Point.mk 100000000 100000000 (0 : Nat)] false none none none none) =
      [Point.mk 100000000 100000000 0] by simp [all_points_mk, all_pointsO]]
    rw [List.filter_cons]
    dsimp only
    rw [hdist, hcont, Bool.true_and]
    rw [decide_eq_true hr2]
    simp

end Quadtree

end QuadtreeSimple
